import Mathlib

/-! Shallow embedding of the big-collection-view virtualized list engine
(lru-cache.js and big-collection-view.js). JavaScript `Map`s are modelled as
association lists kept in insertion order, the LRU cache as a recency-ordered
list together with a membership set, and the per-item bookkeeping of the view
as an explicit state record. DOM measurements enter as explicit oracles. -/

/-- Model of a JavaScript `Map` with integer keys and integer values: an
association list in insertion order. -/
abbrev JsMap := List (Int × Int)

/-- Model of `Map.prototype.get`: value of the entry with the given key. -/
def JsMap.get? : JsMap → Int → Option Int
  | [], _ => none
  | kv :: rest, k => if kv.1 = k then some kv.2 else JsMap.get? rest k

/-- Model of `Map.prototype.has`. -/
def JsMap.has (m : JsMap) (k : Int) : Bool := (m.get? k).isSome

/-- Model of `Map.prototype.set`: overwrite the entry in place when the key is
present, otherwise append a new entry. -/
def JsMap.set : JsMap → Int → Int → JsMap
  | [], k, v => [(k, v)]
  | kv :: rest, k, v => if kv.1 = k then (k, v) :: rest else kv :: JsMap.set rest k v

/-- Model of `Map.prototype.delete`. -/
def JsMap.delete : JsMap → Int → JsMap
  | [], _ => []
  | kv :: rest, k => if kv.1 = k then JsMap.delete rest k else kv :: JsMap.delete rest k

/-- State of `LRUCache` (lru-cache.js): `array` is the recency order with the
most recently touched value first; `set` models the JavaScript `Set` used for
membership tests. -/
structure LRUCache where
  capacity : Nat
  set : List Int
  array : List Int
deriving DecidableEq

/-- Model of the `LRUCache` constructor: `options.capacity || 10`. -/
def LRUCache.init (capacity : Nat) : LRUCache :=
  { capacity := if capacity = 0 then 10 else capacity, set := [], array := [] }

/-- Model of `Set.prototype.add` (membership view). -/
def jsSetAdd (s : List Int) (v : Int) : List Int := if v ∈ s then s else v :: s

/-- Model of `Set.prototype.delete` (membership view). -/
def jsSetDelete (s : List Int) (v : Int) : List Int := s.filter (fun w => decide (w ≠ v))

/-- Model of `LRUCache.put` (lru-cache.js lines 31-51): returns the new cache,
the boolean result, and the evicted values in the order in which the removal
callback is invoked on them. A present value is moved to the front of the
recency array and the call returns `false` early; an absent value is inserted
at the front, and the entries beyond `capacity` are then spliced off. -/
def LRUCache.put (c : LRUCache) (value : Int) : LRUCache × Bool × List Int :=
  if value ∈ c.set then
    ({ c with array := value :: c.array.erase value }, false, [])
  else
    let array := value :: c.array
    let set := jsSetAdd c.set value
    if array.length > c.capacity then
      let removed := array.drop c.capacity
      ({ c with set := removed.foldl jsSetDelete set, array := array.take c.capacity },
        true, removed)
    else
      ({ c with set := set, array := array }, true, [])

/-- Model of `LRUCache.clear`: empties both containers, never invoking the
removal callback. -/
def LRUCache.clear (c : LRUCache) : LRUCache := { c with set := [], array := [] }

/-- Model of `LRUCache.has`. -/
def LRUCache.has (c : LRUCache) (value : Int) : Bool := decide (value ∈ c.set)

/-- Model of `LRUCache.setCapacity` (lru-cache.js lines 86-88): a plain
assignment to the capacity field. -/
def LRUCache.setCapacity (c : LRUCache) (value : Nat) : LRUCache := { c with capacity := value }

/-- One step of the scan in `LRUCache.minimum`: `min == null || x < min`. -/
def jsMinStep (acc : Option Int) (x : Int) : Option Int :=
  match acc with
  | none => some x
  | some m => if x < m then some x else some m

/-- Model of `LRUCache.minimum` (lru-cache.js lines 95-102): linear scan of the
recency array tracking the least value seen so far. -/
def LRUCache.minimum (c : LRUCache) : Option Int :=
  c.array.foldl jsMinStep none

/-- One externally invokable cache operation. -/
inductive LruOp where
  | put (v : Int)
  | clear
  | setCapacity (n : Nat)

/-- Apply one cache operation, discarding the returned flag and evictions. -/
def LRUCache.applyOp (c : LRUCache) : LruOp → LRUCache
  | LruOp.put v => (c.put v).1
  | LruOp.clear => c.clear
  | LruOp.setCapacity n => c.setCapacity n

/-- Run a sequence of cache operations from a freshly constructed cache. -/
def lruRun (capacity : Nat) (ops : List LruOp) : LRUCache :=
  ops.foldl LRUCache.applyOp (LRUCache.init capacity)

/-- Internal consistency of the cache: the membership set and the recency array
hold exactly the same values and the array has no duplicates. -/
def LRUCache.Consistent (c : LRUCache) : Prop :=
  (∀ v : Int, v ∈ c.set ↔ v ∈ c.array) ∧ c.array.Nodup

/-- Per-instance configuration of the view that the embedded operations read. -/
structure ViewConfig where
  estimatedItemHeight : Int
  elementsOffset : Int
  modelStoresExpandedState : Bool

/-- Model of `_getEstimatedElementHeightWithOffset`. -/
def getEstimatedElementHeightWithOffset (cfg : ViewConfig) : Int :=
  cfg.estimatedItemHeight + cfg.elementsOffset

/-- Model of `_getScrollThreshold`: one estimated element height with offset. -/
def getScrollThreshold (cfg : ViewConfig) : Int :=
  getEstimatedElementHeightWithOffset cfg

/-- Model of `_getElementHeightWithOffset`; the raw DOM height is an input. -/
def getElementHeightWithOffset (cfg : ViewConfig) (rawHeight : Int) : Int :=
  rawHeight + cfg.elementsOffset

/-- Model of `_getVisibleItems` (big-collection-view.js lines 659-676): the
inclusive visible index range computed from the scroll offset, the client
height, the estimated item height and the scroll threshold. `Math.floor` of a
real quotient of integers is floor division `Int.fdiv`. -/
def getVisibleItems (cfg : ViewConfig) (count : Nat) (scrollTop clientHeight : Int) :
    Int × Int :=
  let itemHeight := getEstimatedElementHeightWithOffset cfg
  let threshold := getScrollThreshold cfg
  let lo := Int.fdiv (scrollTop - threshold) itemHeight
  let hi := Int.fdiv (scrollTop + clientHeight + threshold) itemHeight
  (max lo 0, min hi ((count : Int) - 1))

/-- Model of the expanded-height overdraft scan inside `_obtainItemPosition`:
`forEach` over the expanded map accumulating `value - estimatedHeight` for keys
below `index`. -/
def heightOverdraftBelow (expanded : JsMap) (estimatedHeight index : Int) : Int :=
  expanded.foldl (fun acc kv => if kv.1 < index then acc + (kv.2 - estimatedHeight) else acc) 0

/-- Model of `_obtainItemPosition` (big-collection-view.js lines 177-194). -/
def obtainItemPosition (positions heights expanded : JsMap) (estimatedHeight index : Int) :
    Int :=
  let prevIndex := index - 1
  if positions.has prevIndex then
    (positions.get? prevIndex).getD 0 + (heights.get? prevIndex).getD 0
  else
    index * estimatedHeight + heightOverdraftBelow expanded estimatedHeight index

/-- Specification-side form of the overdraft: the sum of `height - estimate`
over the expanded entries whose key is below `index`. -/
def overdraftSpecSum (expanded : JsMap) (estimatedHeight index : Int) : Int :=
  ((expanded.filter (fun kv => decide (kv.1 < index))).map (fun kv => kv.2 - estimatedHeight)).sum

/-- Per-item bookkeeping state of the view. `views` holds the indices that
currently have a materialized child view. -/
structure ViewState where
  views : List Int
  positionsMap : JsMap
  heightsMap : JsMap
  expandedHeightsMap : JsMap
  visibleItems : Int × Int
  contentHeight : Int
  isEmptyView : Bool
  indicesCache : LRUCache
deriving DecidableEq

/-- State set up by `initialize`. -/
def ViewState.init : ViewState := ⟨[], [], [], [], (0, 0), 0, false, LRUCache.init 10⟩

/-- Model of `Map.prototype.set` on the view registry (keys only). -/
def jsKeysInsert (l : List Int) (k : Int) : List Int := if k ∈ l then l else l ++ [k]

/-- Model of `_clear` (big-collection-view.js lines 753-763) restricted to the
embedded state: empties the registry, the cache and the three ledgers. -/
def clearState (s : ViewState) : ViewState :=
  { s with views := [], indicesCache := s.indicesCache.clear,
           positionsMap := [], heightsMap := [], expandedHeightsMap := [] }

/-- Model of `_createItem` (big-collection-view.js lines 698-738). `rawHeight`
is the measured DOM height of the freshly rendered child; `hasChildView` is
whether `childView(model)` returned a view type. -/
def createItem (cfg : ViewConfig) (hasChildView : Bool) (s : ViewState)
    (index rawHeight : Int) : ViewState :=
  let s := if s.isEmptyView then clearState { s with isEmptyView := false } else s
  if hasChildView then
    let position := obtainItemPosition s.positionsMap s.heightsMap s.expandedHeightsMap
        (getEstimatedElementHeightWithOffset cfg) index
    let estimatedHeight := getEstimatedElementHeightWithOffset cfg
    let height := if cfg.modelStoresExpandedState then
        match s.expandedHeightsMap.get? index with
        | some h => h
        | none => getElementHeightWithOffset cfg rawHeight
      else getElementHeightWithOffset cfg rawHeight
    { s with views := jsKeysInsert s.views index,
             positionsMap := s.positionsMap.set index position,
             heightsMap := s.heightsMap.set index height,
             expandedHeightsMap :=
               if height ≠ estimatedHeight then s.expandedHeightsMap.set index height
               else s.expandedHeightsMap.delete index }
  else s

/-- The `n` consecutive integers starting at `lo`. -/
def rangeListN : Nat → Int → List Int
  | 0, _ => []
  | n + 1, lo => lo :: rangeListN n (lo + 1)

/-- The inclusive integer range `[lo, hi]` as a list, empty when `hi < lo`;
this is the index sequence of a JavaScript `for (i = lo; i <= hi; ++i)` loop. -/
def rangeList (lo hi : Int) : List Int :=
  rangeListN (hi + 1 - lo).toNat lo

/-- One iteration of the loop in `_updatePositions` (big-collection-view.js
lines 140-156), acting on `(positions, heights, expanded, position)`. -/
def updatePositionsStep (cfg : ViewConfig) (measure : Int → Int) (first : Int)
    (acc : JsMap × JsMap × JsMap × Int) (index : Int) : JsMap × JsMap × JsMap × Int :=
  let positions := acc.1
  let heights := acc.2.1
  let expanded := acc.2.2.1
  let position := acc.2.2.2
  let estimatedHeight := getEstimatedElementHeightWithOffset cfg
  let height := getElementHeightWithOffset cfg (measure index)
  let heights := heights.set index height
  let expanded := if height ≠ estimatedHeight then expanded.set index height
      else expanded.delete index
  if index = first then
    (positions, heights, expanded,
      obtainItemPosition positions heights expanded estimatedHeight index + height)
  else
    (positions.set index position, heights, expanded, position + height)

/-- Model of `_updatePositions` (big-collection-view.js lines 135-168).
`measure index` is the raw DOM height of the materialized view at `index`;
`count` is the collection length. -/
def updatePositions (cfg : ViewConfig) (count : Nat) (measure : Int → Int)
    (s : ViewState) : ViewState :=
  if count = 0 then s
  else
    let estimatedHeight := getEstimatedElementHeightWithOffset cfg
    let idxs := rangeList s.visibleItems.1 s.visibleItems.2
    let r := idxs.foldl (updatePositionsStep cfg measure s.visibleItems.1)
        (s.positionsMap, s.heightsMap, s.expandedHeightsMap, 0)
    let heightOverdraft := r.2.2.1.foldl (fun acc kv => acc + (kv.2 - estimatedHeight)) 0
    { s with positionsMap := r.1, heightsMap := r.2.1, expandedHeightsMap := r.2.2.1,
             contentHeight := (count : Int) * estimatedHeight + heightOverdraft }

/-- Scan of `getIndexById` carrying the loop counter `i`. -/
def getIndexByIdAux (collection : List Int) (id : Int) (i : Nat) : Option Int :=
  match collection with
  | [] => none
  | x :: rest => if x = id then some (i : Int) else getIndexByIdAux rest id (i + 1)

/-- Model of `getIndexById` (big-collection-view.js lines 277-284): the
collection is its list of model ids, scanned front to back; `null` is `none`. -/
def getIndexById (collection : List Int) (id : Int) : Option Int :=
  getIndexByIdAux collection id 0

/-- Model of the `maxIndex` scan in `_discardExpandedStateById`: `forEach` over
the position ledger maximising the key, starting from 0. -/
def positionsMaxIndex (m : JsMap) : Int := m.foldl (fun acc kv => max acc kv.1) 0

/-- One iteration of the re-propagation loop in `_discardExpandedStateById`
(big-collection-view.js lines 231-241), acting on `(positions, position)`. -/
def discardPositionsStep (index : Int) (heights : JsMap)
    (acc : JsMap × Int) (i : Int) : JsMap × Int :=
  let positions := acc.1
  let position := acc.2
  let height := (heights.get? i).getD 0
  if i = index then (positions, (positions.get? i).getD 0 + height)
  else (positions.set i position, position + height)

/-- Model of `_discardExpandedStateById` (big-collection-view.js lines 212-244),
including the trailing `_updatePositions` pass. -/
def discardExpandedStateById (cfg : ViewConfig) (count : Nat) (collection : List Int)
    (measure : Int → Int) (s : ViewState) (id : Int) : ViewState :=
  match getIndexById collection id with
  | none => updatePositions cfg count measure s
  | some index =>
    if s.expandedHeightsMap.has index then
      let s := { s with expandedHeightsMap := s.expandedHeightsMap.delete index }
      let s := if s.heightsMap.has index then
          let s := { s with heightsMap :=
              s.heightsMap.set index (getEstimatedElementHeightWithOffset cfg) }
          let maxIndex := positionsMaxIndex s.positionsMap
          let r := (rangeList index maxIndex).foldl
              (discardPositionsStep index s.heightsMap) (s.positionsMap, 0)
          { s with positionsMap := r.1 }
        else s
      updatePositions cfg count measure s
    else updatePositions cfg count measure s

/-- Model of `_onIndexRemovedFromCache` (big-collection-view.js lines 773-782):
the view, position and height records of the evicted index are purged; the
expanded-height record is left in place. -/
def onIndexRemovedFromCache (s : ViewState) (index : Int) : ViewState :=
  { s with views := s.views.filter (fun k => decide (k ≠ index)),
           positionsMap := s.positionsMap.delete index,
           heightsMap := s.heightsMap.delete index }

/-- Model of `_fixScrollPosition` (big-collection-view.js lines 339-350). -/
def fixScrollPosition (useIScroll : Bool) (maxScrollY clientHeight scrollHeight
    scrollTop : Int) : Int :=
  if useIScroll then
    if scrollTop > |maxScrollY| then |maxScrollY| else scrollTop
  else
    if scrollTop > scrollHeight - clientHeight then max (scrollHeight - clientHeight) 0
    else scrollTop

/-- Model of `_scrollToElementByIndex` (big-collection-view.js lines 316-330):
returns the unchanged per-item state together with the scroll target actually
requested, `none` when no scroll is issued. The `null` index guard returns
immediately. -/
def scrollToElementByIndex (cfg : ViewConfig) (useIScroll : Bool)
    (maxScrollY clientHeight scrollHeight : Int) (s : ViewState) (index : Option Int) :
    ViewState × Option Int :=
  match index with
  | none => (s, none)
  | some i =>
    let position := i * getEstimatedElementHeightWithOffset cfg
    (s, some (fixScrollPosition useIScroll maxScrollY clientHeight scrollHeight position))

/-- A queued render-complete callback: either the scheduler's own
`_onFunctionRequestFinished` or an externally supplied callback. -/
inductive SchedCb where
  | functionFinished
  | otherCb
deriving DecidableEq

/-- Observable scheduling events: a request body starting to execute, or a
completion callback firing. -/
inductive TraceEv where
  | beginReq (r : Nat)
  | finishReq
deriving DecidableEq

/-- Scheduler state of the view: the function-request queue, the active flag,
the render-complete callback queue, the coalescing flag of
`requestAnimationFrame`, and the observable trace. Request bodies are
abstracted to their identifiers. -/
structure SchedState where
  functionsQueue : List Nat
  isFunctionActive : Bool
  renderCallbacks : List SchedCb
  frameRequested : Bool
  trace : List TraceEv
deriving DecidableEq

/-- Scheduler state set up by `initialize`. -/
def schedInit : SchedState := ⟨[], false, [], false, []⟩

/-- Model of `_requestFrame`: coalesces into one pending frame. -/
def requestFrame (s : SchedState) : SchedState := { s with frameRequested := true }

/-- Model of `_processFunctionRequest` (big-collection-view.js lines 459-470):
when idle and the queue is nonempty, shift the first request, run its body
(recorded as a `beginReq` trace event), enqueue `_onFunctionRequestFinished` as
a render-complete callback and request a frame. -/
def processFunctionRequest (s : SchedState) : SchedState :=
  if s.isFunctionActive then s
  else
    match s.functionsQueue with
    | [] => s
    | r :: rest =>
      requestFrame { s with
        functionsQueue := rest,
        isFunctionActive := true,
        trace := s.trace ++ [TraceEv.beginReq r],
        renderCallbacks := s.renderCallbacks ++ [SchedCb.functionFinished] }

/-- Model of `_addFunctionRequest` (big-collection-view.js lines 449-453). -/
def addFunctionRequest (s : SchedState) (r : Nat) : SchedState :=
  processFunctionRequest { s with functionsQueue := s.functionsQueue ++ [r] }

/-- Model of `_onFunctionRequestFinished` (big-collection-view.js lines
476-479): clear the active flag (recorded as a `finishReq` trace event) and
process the next request. -/
def onFunctionRequestFinished (s : SchedState) : SchedState :=
  processFunctionRequest
    { s with isFunctionActive := false, trace := s.trace ++ [TraceEv.finishReq] }

/-- Run one queued render-complete callback. -/
def runSchedCallback (s : SchedState) : SchedCb → SchedState
  | SchedCb.functionFinished => onFunctionRequestFinished s
  | SchedCb.otherCb => s

/-- Fire a fixed list of callbacks in order; callbacks appended while firing
accumulate in the state and are not fired in this pass. -/
def fireCallbacksAux : List SchedCb → SchedState → SchedState
  | [], s => s
  | cb :: rest, s => fireCallbacksAux rest (runSchedCallback s cb)

/-- Model of `_fireRenderCompleteCallbacks` (big-collection-view.js lines
430-442): the queue length is captured first, the first `n` callbacks are fired
in order, and exactly those are then spliced off. -/
def fireRenderCompleteCallbacks (s : SchedState) : SchedState :=
  fireCallbacksAux s.renderCallbacks { s with renderCallbacks := [] }

/-- Model of one animation frame reaching `_update` (big-collection-view.js
lines 614-638), restricted to the scheduler: the coalescing flag is reset and
the render-complete callbacks fire. A frame only runs when one was requested. -/
def schedFrame (s : SchedState) : SchedState :=
  if s.frameRequested then fireRenderCompleteCallbacks { s with frameRequested := false }
  else s

/-- External stimuli of the scheduler: submitting a function request, adding an
external render-complete callback, and an animation-frame boundary. -/
inductive SchedEv where
  | addRequest (r : Nat)
  | addCallback
  | frame

/-- Apply one external stimulus. -/
def schedStep (s : SchedState) : SchedEv → SchedState
  | SchedEv.addRequest r => addFunctionRequest s r
  | SchedEv.addCallback => { s with renderCallbacks := s.renderCallbacks ++ [SchedCb.otherCb] }
  | SchedEv.frame => schedFrame s

/-- Run a sequence of external stimuli from the initial scheduler state. -/
def schedRun (events : List SchedEv) : SchedState := events.foldl schedStep schedInit

/-- Number of pending `_onFunctionRequestFinished` callbacks in a queue. -/
def ffCount (l : List SchedCb) : Nat :=
  l.countP (fun cb => match cb with | SchedCb.functionFinished => true | SchedCb.otherCb => false)

/-- One step of the alternation automaton over the trace: a request may begin
only when none is active, and a completion may fire only while one is. -/
def traceStep (st : Option Bool) (e : TraceEv) : Option Bool :=
  match st, e with
  | some false, TraceEv.beginReq _ => some true
  | some true, TraceEv.finishReq => some false
  | _, _ => none

/-- Run the alternation automaton over a trace; `none` means the trace violates
the one-at-a-time discipline. -/
def traceFold (t : List TraceEv) : Option Bool := t.foldl traceStep (some false)

/-- The request identifiers that began executing, in order. -/
def beginsOf (t : List TraceEv) : List Nat :=
  t.filterMap (fun e => match e with | TraceEv.beginReq r => some r | TraceEv.finishReq => none)

/-- The request identifiers submitted by a stimulus sequence, in order. -/
def requestsOf (events : List SchedEv) : List Nat :=
  events.filterMap (fun e => match e with | SchedEv.addRequest r => some r | _ => none)

/-- Scheduler invariant: the trace respects the alternation automaton and ends
in the current active flag, exactly one completion callback is pending while a
request is active, and the begun requests followed by the queued ones are the
submitted requests in order. -/
def SchedInv (s : SchedState) (reqs : List Nat) : Prop :=
  traceFold s.trace = some s.isFunctionActive ∧
  ffCount s.renderCallbacks = (if s.isFunctionActive then 1 else 0) ∧
  beginsOf s.trace ++ s.functionsQueue = reqs

/-- The height ledger and the expanded ledger agree: a recorded height differs
from the estimate exactly when the index has an expanded entry. -/
def HEInvIff (estimatedHeight : Int) (heights expanded : JsMap) : Prop :=
  ∀ k v, heights.get? k = some v → (expanded.has k = true ↔ v ≠ estimatedHeight)

/-- Every key of the expanded ledger is a key of the height ledger. -/
def HEInvSub (heights expanded : JsMap) : Prop :=
  ∀ k, expanded.has k = true → heights.has k = true

/-- The iff form of the expanded-ledger invariant on a view state. -/
def ExpandedIffInv (cfg : ViewConfig) (s : ViewState) : Prop :=
  HEInvIff (getEstimatedElementHeightWithOffset cfg) s.heightsMap s.expandedHeightsMap

/-- The subset form of the expanded-ledger invariant on a view state. -/
def ExpandedSubInv (s : ViewState) : Prop :=
  HEInvSub s.heightsMap s.expandedHeightsMap

/-! Lemmas about the `JsMap` model. -/

theorem JsMap.get?_eq_some_mem {m : JsMap} {k v : Int} (h : m.get? k = some v) :
    (k, v) ∈ m := by
  induction m with
  | nil => simp [JsMap.get?] at h
  | cons kv rest ih =>
    rw [JsMap.get?] at h
    by_cases hk : kv.1 = k
    · rw [if_pos hk] at h
      have h2 : kv.2 = v := by injection h
      have hkv : kv = (k, v) := by
        rcases kv with ⟨a, b⟩
        simp only at hk h2
        rw [hk, h2]
      rw [← hkv]
      exact List.mem_cons_self kv rest
    · rw [if_neg hk] at h
      exact List.mem_cons_of_mem kv (ih h)

theorem JsMap.get?_set_self (m : JsMap) (k v : Int) : (m.set k v).get? k = some v := by
  induction m with
  | nil => simp [JsMap.set, JsMap.get?]
  | cons kv rest ih =>
    rw [JsMap.set]
    by_cases hk : kv.1 = k
    · rw [if_pos hk, JsMap.get?, if_pos rfl]
    · rw [if_neg hk, JsMap.get?, if_neg hk]
      exact ih

theorem JsMap.get?_set_ne (m : JsMap) (k v j : Int) (h : j ≠ k) :
    (m.set k v).get? j = m.get? j := by
  have hkj : ¬ (k = j) := fun hh => h hh.symm
  induction m with
  | nil => simp [JsMap.set, JsMap.get?, hkj]
  | cons kv rest ih =>
    rw [JsMap.set]
    by_cases hk : kv.1 = k
    · have hnj : ¬ (kv.1 = j) := by rw [hk]; exact hkj
      rw [if_pos hk]
      simp only [JsMap.get?]
      rw [if_neg hkj, if_neg hnj]
    · by_cases hj : kv.1 = j
      · rw [if_neg hk]
        simp only [JsMap.get?]
        rw [if_pos hj, if_pos hj]
      · rw [if_neg hk]
        simp only [JsMap.get?]
        rw [if_neg hj, if_neg hj]
        exact ih

theorem JsMap.get?_delete_self (m : JsMap) (k : Int) : (m.delete k).get? k = none := by
  induction m with
  | nil => simp [JsMap.delete, JsMap.get?]
  | cons kv rest ih =>
    rw [JsMap.delete]
    by_cases hk : kv.1 = k
    · rw [if_pos hk]; exact ih
    · rw [if_neg hk, JsMap.get?, if_neg hk]; exact ih

theorem JsMap.get?_delete_ne (m : JsMap) (k j : Int) (h : j ≠ k) :
    (m.delete k).get? j = m.get? j := by
  induction m with
  | nil => simp [JsMap.delete]
  | cons kv rest ih =>
    rw [JsMap.delete]
    by_cases hk : kv.1 = k
    · have hnj : ¬ (kv.1 = j) := by rw [hk]; exact fun hh => h hh.symm
      rw [if_pos hk, JsMap.get?, if_neg hnj]
      exact ih
    · by_cases hj : kv.1 = j
      · rw [if_neg hk, JsMap.get?, if_pos hj, JsMap.get?, if_pos hj]
      · rw [if_neg hk, JsMap.get?, if_neg hj, JsMap.get?, if_neg hj]
        exact ih

theorem JsMap.has_set_self (m : JsMap) (k v : Int) : (m.set k v).has k = true := by
  simp [JsMap.has, JsMap.get?_set_self]

theorem JsMap.has_set_ne (m : JsMap) (k v j : Int) (h : j ≠ k) :
    (m.set k v).has j = m.has j := by
  simp [JsMap.has, JsMap.get?_set_ne m k v j h]

theorem JsMap.has_delete_self (m : JsMap) (k : Int) : (m.delete k).has k = false := by
  simp [JsMap.has, JsMap.get?_delete_self]

theorem JsMap.has_delete_ne (m : JsMap) (k j : Int) (h : j ≠ k) :
    (m.delete k).has j = m.has j := by
  simp [JsMap.has, JsMap.get?_delete_ne m k j h]

theorem JsMap.set_set (m : JsMap) (k v w : Int) : (m.set k v).set k w = m.set k w := by
  induction m with
  | nil => simp [JsMap.set]
  | cons kv rest ih =>
    rw [JsMap.set]
    by_cases hk : kv.1 = k
    · rw [if_pos hk, JsMap.set, if_pos rfl, JsMap.set, if_pos hk]
    · rw [if_neg hk, JsMap.set, if_neg hk, ih, JsMap.set, if_neg hk]

theorem JsMap.delete_of_has_false (m : JsMap) (k : Int) (h : m.has k = false) :
    m.delete k = m := by
  induction m with
  | nil => rfl
  | cons kv rest ih =>
    rw [JsMap.delete]
    by_cases hk : kv.1 = k
    · exfalso
      simp [JsMap.has, JsMap.get?, hk] at h
    · rw [JsMap.has, JsMap.get?, if_neg hk, ← JsMap.has] at h
      rw [if_neg hk, ih h]

theorem JsMap.delete_delete (m : JsMap) (k : Int) : (m.delete k).delete k = m.delete k :=
  JsMap.delete_of_has_false _ _ (JsMap.has_delete_self m k)

theorem JsMap.has_set_mono (m : JsMap) (k v j : Int) (h : m.has j = true) :
    (m.set k v).has j = true := by
  by_cases hj : j = k
  · rw [hj]; exact JsMap.has_set_self m k v
  · rw [JsMap.has_set_ne m k v j hj]; exact h

theorem foldl_max_le_acc (m : JsMap) (acc : Int) :
    acc ≤ m.foldl (fun a e => max a e.1) acc := by
  induction m generalizing acc with
  | nil => exact le_refl acc
  | cons kv rest ih =>
    rw [List.foldl_cons]
    exact le_trans (le_max_left acc kv.1) (ih (max acc kv.1))

theorem mem_le_foldl_max (m : JsMap) (kv : Int × Int) (hmem : kv ∈ m) (acc : Int) :
    kv.1 ≤ m.foldl (fun a e => max a e.1) acc := by
  induction hmem generalizing acc with
  | head rest =>
    rw [List.foldl_cons]
    exact le_trans (le_max_right acc kv.1) (foldl_max_le_acc rest (max acc kv.1))
  | tail b hmem ih =>
    rw [List.foldl_cons]
    exact ih (max acc b.1)

theorem key_le_positionsMaxIndex {m : JsMap} {k v : Int} (h : m.get? k = some v) :
    k ≤ positionsMaxIndex m :=
  mem_le_foldl_max m (k, v) (JsMap.get?_eq_some_mem h) 0

/-! Lemmas about the LRU cache model. -/

theorem mem_jsSetAdd {s : List Int} {v w : Int} : w ∈ jsSetAdd s v ↔ w ∈ s ∨ w = v := by
  unfold jsSetAdd
  by_cases hv : v ∈ s
  · rw [if_pos hv]
    constructor
    · exact fun h => Or.inl h
    · rintro (h | h)
      · exact h
      · rw [h]; exact hv
  · rw [if_neg hv]
    rw [List.mem_cons]
    exact or_comm

theorem mem_jsSetDelete {s : List Int} {v w : Int} : w ∈ jsSetDelete s v ↔ w ∈ s ∧ w ≠ v := by
  simp [jsSetDelete, List.mem_filter]

theorem mem_foldl_jsSetDelete (l : List Int) (s : List Int) (w : Int) :
    w ∈ l.foldl jsSetDelete s ↔ w ∈ s ∧ w ∉ l := by
  induction l generalizing s with
  | nil => simp
  | cons x xs ih =>
    rw [List.foldl_cons, ih, mem_jsSetDelete, List.mem_cons]
    tauto

theorem mem_take_iff_of_nodup {l : List Int} (hnd : l.Nodup) (n : Nat) (w : Int) :
    w ∈ l.take n ↔ w ∈ l ∧ w ∉ l.drop n := by
  have hsplit : l.take n ++ l.drop n = l := List.take_append_drop n l
  have hnd2 : (l.take n ++ l.drop n).Nodup := by rw [hsplit]; exact hnd
  rw [List.nodup_append] at hnd2
  constructor
  · intro hw
    refine ⟨by rw [← hsplit]; exact List.mem_append_left _ hw, ?_⟩
    intro hd
    exact hnd2.2.2 hw hd
  · rintro ⟨hw, hdr⟩
    rw [← hsplit] at hw
    rcases List.mem_append.mp hw with h | h
    · exact h
    · exact absurd h hdr

theorem consistent_init (capacity : Nat) : (LRUCache.init capacity).Consistent := by
  refine ⟨fun v => ?_, ?_⟩ <;> simp [LRUCache.init, LRUCache.Consistent]

theorem consistent_put {c : LRUCache} (h : c.Consistent) (v : Int) :
    (c.put v).1.Consistent := by
  rcases h with ⟨hmem, hnd⟩
  simp only [LRUCache.put]
  by_cases hv : v ∈ c.set
  · rw [if_pos hv]
    have hva : v ∈ c.array := (hmem v).mp hv
    refine ⟨fun w => ?_, ?_⟩
    · simp only
      rw [List.mem_cons]
      constructor
      · intro hw
        by_cases hwv : w = v
        · exact Or.inl hwv
        · exact Or.inr ((List.mem_erase_of_ne hwv).mpr ((hmem w).mp hw))
      · rintro (hwv | hw)
        · rw [hwv]; exact hv
        · exact (hmem w).mpr (List.mem_of_mem_erase hw)
    · simp only
      refine List.nodup_cons.mpr ⟨?_, hnd.erase v⟩
      intro hmem2
      exact absurd ((hnd.mem_erase_iff).mp hmem2).1 (by simp)
  · rw [if_neg hv]
    have hva : v ∉ c.array := fun h2 => hv ((hmem v).mpr h2)
    have harrnd : (v :: c.array).Nodup := List.nodup_cons.mpr ⟨hva, hnd⟩
    by_cases hlen : (v :: c.array).length > c.capacity
    · rw [if_pos hlen]
      refine ⟨fun w => ?_, ?_⟩
      · simp only
        rw [mem_foldl_jsSetDelete, mem_jsSetAdd,
          mem_take_iff_of_nodup harrnd c.capacity w, List.mem_cons]
        constructor
        · rintro ⟨hin, hout⟩
          rcases hin with hin | hin
          · exact ⟨Or.inr ((hmem w).mp hin), hout⟩
          · exact ⟨Or.inl hin, hout⟩
        · rintro ⟨hin, hout⟩
          rcases hin with hin | hin
          · exact ⟨Or.inr hin, hout⟩
          · exact ⟨Or.inl ((hmem w).mpr hin), hout⟩
      · simp only
        exact harrnd.sublist (List.take_sublist c.capacity (v :: c.array))
    · rw [if_neg hlen]
      refine ⟨fun w => ?_, harrnd⟩
      simp only
      rw [mem_jsSetAdd, List.mem_cons]
      constructor
      · rintro (hw | hw)
        · exact Or.inr ((hmem w).mp hw)
        · exact Or.inl hw
      · rintro (hw | hw)
        · exact Or.inr hw
        · exact Or.inl ((hmem w).mpr hw)

theorem consistent_clear {c : LRUCache} : c.clear.Consistent := by
  refine ⟨fun v => ?_, ?_⟩ <;> simp [LRUCache.clear, LRUCache.Consistent]

theorem consistent_setCapacity {c : LRUCache} (h : c.Consistent) (n : Nat) :
    (c.setCapacity n).Consistent := h

theorem lruRun_consistent (capacity : Nat) (ops : List LruOp) :
    (lruRun capacity ops).Consistent := by
  unfold lruRun
  have hstep : ∀ (l : List LruOp) (c : LRUCache), c.Consistent →
      (l.foldl LRUCache.applyOp c).Consistent := by
    intro l
    induction l with
    | nil => exact fun c hc => hc
    | cons op rest ih =>
      intro c hc
      rw [List.foldl_cons]
      refine ih _ ?_
      cases op with
      | put v => exact consistent_put hc v
      | clear => exact consistent_clear
      | setCapacity n => exact consistent_setCapacity hc n
  exact hstep ops _ (consistent_init capacity)

theorem put_length_le {c : LRUCache} (hcons : c.Consistent) (v : Int)
    (h : c.array.length ≤ c.capacity) :
    (c.put v).1.array.length ≤ (c.put v).1.capacity := by
  rcases hcons with ⟨hmem, _⟩
  simp only [LRUCache.put]
  by_cases hv : v ∈ c.set
  · rw [if_pos hv]
    have hva : v ∈ c.array := (hmem v).mp hv
    have hpos : 0 < c.array.length := List.length_pos_of_mem hva
    simp only [List.length_cons, List.length_erase_of_mem hva]
    omega
  · rw [if_neg hv]
    by_cases hlen : (v :: c.array).length > c.capacity
    · rw [if_pos hlen]
      simp only [List.length_take]
      omega
    · rw [if_neg hlen]
      simp only [List.length_cons] at hlen ⊢
      omega

theorem foldl_jsMinStep_some (l : List Int) (a : Int) :
    ∃ m, l.foldl jsMinStep (some a) = some m ∧ (m = a ∨ m ∈ l) ∧ m ≤ a ∧
      ∀ x ∈ l, m ≤ x := by
  induction l generalizing a with
  | nil =>
    refine ⟨a, rfl, Or.inl rfl, le_refl a, ?_⟩
    intro x hx
    cases hx
  | cons y ys ih =>
    rw [List.foldl_cons, jsMinStep]
    by_cases hy : y < a
    · rw [if_pos hy]
      obtain ⟨m, hm, hmm, hle, hall⟩ := ih y
      refine ⟨m, hm, ?_, le_trans hle (le_of_lt hy), ?_⟩
      · rcases hmm with he | hm2
        · exact Or.inr (by rw [he]; exact List.mem_cons_self _ _)
        · exact Or.inr (List.mem_cons_of_mem _ hm2)
      · intro x hx
        rcases List.mem_cons.mp hx with he | hxx
        · rw [he]; exact hle
        · exact hall x hxx
    · rw [if_neg hy]
      obtain ⟨m, hm, hmm, hle, hall⟩ := ih a
      refine ⟨m, hm, ?_, hle, ?_⟩
      · rcases hmm with he | hm2
        · exact Or.inl he
        · exact Or.inr (List.mem_cons_of_mem _ hm2)
      · intro x hx
        rcases List.mem_cons.mp hx with he | hxx
        · rw [he]; exact le_trans hle (not_lt.mp hy)
        · exact hall x hxx

theorem minimum_eq_none_iff (c : LRUCache) : c.minimum = none ↔ c.array = [] := by
  unfold LRUCache.minimum
  cases harr : c.array with
  | nil => simp
  | cons y ys =>
    rw [List.foldl_cons]
    rw [show jsMinStep none y = some y from rfl]
    obtain ⟨m, hm, _⟩ := foldl_jsMinStep_some ys y
    rw [hm]
    simp

theorem minimum_spec {c : LRUCache} {m : Int} (h : c.minimum = some m) :
    m ∈ c.array ∧ ∀ x ∈ c.array, m ≤ x := by
  unfold LRUCache.minimum at h
  cases harr : c.array with
  | nil => rw [harr] at h; simp at h
  | cons y ys =>
    rw [harr] at h
    rw [List.foldl_cons, show jsMinStep none y = some y from rfl] at h
    obtain ⟨m2, hm2, hmm, hle, hall⟩ := foldl_jsMinStep_some ys y
    rw [hm2] at h
    injection h with h
    subst h
    constructor
    · rcases hmm with he | hm3
      · rw [he]; exact List.mem_cons_self _ _
      · exact List.mem_cons_of_mem _ hm3
    · intro x hx
      rcases List.mem_cons.mp hx with he | hxx
      · rw [he]; exact hle
      · exact hall x hxx

/-! Lemmas about the scheduler model. -/

theorem ffCount_nil : ffCount [] = 0 := rfl

theorem ffCount_append (a b : List SchedCb) : ffCount (a ++ b) = ffCount a + ffCount b :=
  List.countP_append _ _ _

theorem ffCount_cons_ff (l : List SchedCb) :
    ffCount (SchedCb.functionFinished :: l) = ffCount l + 1 := by
  unfold ffCount
  rw [List.countP_cons]
  simp

theorem ffCount_cons_other (l : List SchedCb) : ffCount (SchedCb.otherCb :: l) = ffCount l := by
  unfold ffCount
  rw [List.countP_cons]
  rfl

theorem traceFold_append_one (t : List TraceEv) (e : TraceEv) :
    traceFold (t ++ [e]) = traceStep (traceFold t) e := by
  unfold traceFold
  rw [List.foldl_append]
  rfl

theorem traceFold_none_absorb (l : List TraceEv) : l.foldl traceStep none = none := by
  induction l with
  | nil => rfl
  | cons e rest ih =>
    rw [List.foldl_cons, show traceStep none e = none from rfl, ih]

theorem beginsOf_append (a b : List TraceEv) : beginsOf (a ++ b) = beginsOf a ++ beginsOf b :=
  List.filterMap_append _ _ _

theorem schedInv_processFunctionRequest {s : SchedState} {reqs : List Nat}
    (h : SchedInv s reqs) : SchedInv (processFunctionRequest s) reqs := by
  obtain ⟨hA, hB, hC⟩ := h
  unfold processFunctionRequest
  by_cases hact : s.isFunctionActive
  · rw [if_pos hact]
    exact ⟨hA, hB, hC⟩
  · rw [if_neg hact]
    cases hq : s.functionsQueue with
    | nil => exact ⟨hA, hB, hC⟩
    | cons r rest =>
      rw [Bool.not_eq_true] at hact
      unfold requestFrame
      refine ⟨?_, ?_, ?_⟩
      · simp only
        rw [traceFold_append_one, hA, hact]
        rfl
      · simp only
        rw [ffCount_append, hB, hact]
        rfl
      · simp only
        rw [beginsOf_append, List.append_assoc,
          show beginsOf [TraceEv.beginReq r] ++ rest = r :: rest from rfl, ← hq]
        exact hC

theorem schedInv_addFunctionRequest {s : SchedState} {reqs : List Nat}
    (h : SchedInv s reqs) (r : Nat) : SchedInv (addFunctionRequest s r) (reqs ++ [r]) := by
  obtain ⟨hA, hB, hC⟩ := h
  unfold addFunctionRequest
  apply schedInv_processFunctionRequest
  refine ⟨hA, hB, ?_⟩
  simp only
  rw [← List.append_assoc, hC]

theorem schedInv_onFunctionRequestFinished {s : SchedState} {reqs : List Nat}
    (hA : traceFold s.trace = some s.isFunctionActive)
    (hact : s.isFunctionActive = true)
    (hB0 : ffCount s.renderCallbacks = 0)
    (hC : beginsOf s.trace ++ s.functionsQueue = reqs) :
    SchedInv (onFunctionRequestFinished s) reqs := by
  unfold onFunctionRequestFinished
  apply schedInv_processFunctionRequest
  refine ⟨?_, ?_, ?_⟩
  · simp only
    rw [traceFold_append_one, hA, hact]
    rfl
  · simpa using hB0
  · simp only
    rw [beginsOf_append]
    simpa using hC

theorem schedInv_fireAux (p : List SchedCb) :
    ∀ (s : SchedState) (reqs : List Nat),
    traceFold s.trace = some s.isFunctionActive →
    ffCount p + ffCount s.renderCallbacks = (if s.isFunctionActive then 1 else 0) →
    beginsOf s.trace ++ s.functionsQueue = reqs →
    SchedInv (fireCallbacksAux p s) reqs := by
  induction p with
  | nil =>
    intro s reqs hA hB hC
    rw [fireCallbacksAux]
    refine ⟨hA, ?_, hC⟩
    rw [ffCount_nil] at hB
    omega
  | cons cb rest ih =>
    intro s reqs hA hB hC
    rw [fireCallbacksAux]
    cases cb with
    | otherCb =>
      rw [ffCount_cons_other] at hB
      exact ih s reqs hA hB hC
    | functionFinished =>
      rw [ffCount_cons_ff] at hB
      have hact : s.isFunctionActive = true := by
        by_contra hh
        rw [Bool.not_eq_true] at hh
        rw [hh] at hB
        simp at hB
      rw [hact] at hB
      simp only [if_pos] at hB
      have hB0 : ffCount s.renderCallbacks = 0 := by omega
      have hrest0 : ffCount rest = 0 := by omega
      obtain ⟨hA2, hB2, hC2⟩ := schedInv_onFunctionRequestFinished hA hact hB0 hC
      refine ih _ reqs hA2 ?_ hC2
      rw [hrest0, Nat.zero_add]
      exact hB2

theorem schedInv_fireRenderCompleteCallbacks {s : SchedState} {reqs : List Nat}
    (h : SchedInv s reqs) : SchedInv (fireRenderCompleteCallbacks s) reqs := by
  obtain ⟨hA, hB, hC⟩ := h
  unfold fireRenderCompleteCallbacks
  refine schedInv_fireAux s.renderCallbacks _ reqs hA ?_ hC
  simpa using hB

theorem schedInv_schedFrame {s : SchedState} {reqs : List Nat}
    (h : SchedInv s reqs) : SchedInv (schedFrame s) reqs := by
  unfold schedFrame
  by_cases hf : s.frameRequested
  · rw [if_pos hf]
    apply schedInv_fireRenderCompleteCallbacks
    exact h
  · rw [if_neg hf]
    exact h

theorem schedInv_foldl (events : List SchedEv) :
    ∀ (s : SchedState) (reqs : List Nat), SchedInv s reqs →
    SchedInv (events.foldl schedStep s) (reqs ++ requestsOf events) := by
  induction events with
  | nil =>
    intro s reqs h
    simpa [requestsOf] using h
  | cons e rest ih =>
    intro s reqs h
    rw [List.foldl_cons]
    cases e with
    | addRequest r =>
      have h2 := schedInv_addFunctionRequest h r
      have h3 := ih _ (reqs ++ [r]) h2
      rw [List.append_assoc] at h3
      simpa [requestsOf, List.filterMap_cons] using h3
    | addCallback =>
      refine ?_
      have h2 : SchedInv (schedStep s SchedEv.addCallback) reqs := by
        obtain ⟨hA, hB, hC⟩ := h
        refine ⟨hA, ?_, hC⟩
        simp only [schedStep]
        rw [ffCount_append, hB]
        rfl
      have h3 := ih _ reqs h2
      simpa [requestsOf, List.filterMap_cons] using h3
    | frame =>
      have h3 := ih _ reqs (schedInv_schedFrame h)
      simpa [requestsOf, List.filterMap_cons] using h3

theorem schedInv_run (events : List SchedEv) :
    SchedInv (schedRun events) (requestsOf events) := by
  have h0 : SchedInv schedInit [] := ⟨rfl, rfl, rfl⟩
  have h := schedInv_foldl events schedInit [] h0
  simpa [schedRun] using h

theorem finish_mem_of_fold_true_false (t : List TraceEv)
    (h : t.foldl traceStep (some true) = some false) : TraceEv.finishReq ∈ t := by
  induction t with
  | nil => simp [List.foldl_nil] at h
  | cons e rest ih =>
    cases e with
    | beginReq r =>
      rw [List.foldl_cons, show traceStep (some true) (TraceEv.beginReq r) = none from rfl,
        traceFold_none_absorb] at h
      cases h
    | finishReq => exact List.mem_cons_self _ _

theorem trace_serialized {t : List TraceEv} {b : Bool} (h : traceFold t = some b)
    {t1 t2 t3 : List TraceEv} {r1 r2 : Nat}
    (hdec : t = t1 ++ TraceEv.beginReq r1 :: (t2 ++ TraceEv.beginReq r2 :: t3)) :
    TraceEv.finishReq ∈ t2 := by
  subst hdec
  unfold traceFold at h
  rw [List.foldl_append, List.foldl_cons, List.foldl_append, List.foldl_cons] at h
  cases hst1 : List.foldl traceStep (some false) t1 with
  | none =>
    rw [hst1, show traceStep none (TraceEv.beginReq r1) = none from rfl,
      traceFold_none_absorb, show traceStep none (TraceEv.beginReq r2) = none from rfl,
      traceFold_none_absorb] at h
    cases h
  | some b1 =>
    rw [hst1] at h
    cases b1 with
    | true =>
      rw [show traceStep (some true) (TraceEv.beginReq r1) = none from rfl,
        traceFold_none_absorb, show traceStep none (TraceEv.beginReq r2) = none from rfl,
        traceFold_none_absorb] at h
      cases h
    | false =>
      rw [show traceStep (some false) (TraceEv.beginReq r1) = some true from rfl] at h
      cases hst2 : List.foldl traceStep (some true) t2 with
      | none =>
        rw [hst2, show traceStep none (TraceEv.beginReq r2) = none from rfl,
          traceFold_none_absorb] at h
        cases h
      | some b2 =>
        cases b2 with
        | true =>
          rw [hst2, show traceStep (some true) (TraceEv.beginReq r2) = none from rfl,
            traceFold_none_absorb] at h
          cases h
        | false => exact finish_mem_of_fold_true_false t2 hst2

/-! Lemmas about the position and height ledgers. -/

theorem JsMap.set_of_get_eq (m : JsMap) (k v : Int) (h : m.get? k = some v) :
    m.set k v = m := by
  induction m with
  | nil => simp [JsMap.get?] at h
  | cons kv rest ih =>
    rw [JsMap.get?] at h
    rw [JsMap.set]
    by_cases hk : kv.1 = k
    · rw [if_pos hk] at h ⊢
      injection h with h2
      have hkv : (k, v) = kv := by
        rcases kv with ⟨a, b⟩
        simp only at hk h2 ⊢
        rw [hk, h2]
      rw [hkv]
    · rw [if_neg hk] at h ⊢
      rw [ih h]

theorem heightOverdraftBelow_eq (expanded : JsMap) (estimatedHeight index : Int) :
    heightOverdraftBelow expanded estimatedHeight index =
      overdraftSpecSum expanded estimatedHeight index := by
  unfold heightOverdraftBelow overdraftSpecSum
  have h : ∀ (l : JsMap) (acc : Int),
      l.foldl (fun acc kv => if kv.1 < index then acc + (kv.2 - estimatedHeight) else acc) acc
        = acc + ((l.filter (fun kv => decide (kv.1 < index))).map
            (fun kv => kv.2 - estimatedHeight)).sum := by
    intro l
    induction l with
    | nil => intro acc; simp
    | cons kv rest ih =>
      intro acc
      rw [List.foldl_cons]
      by_cases hk : kv.1 < index
      · rw [if_pos hk, ih]
        simp [List.filter_cons, hk]
        ring
      · rw [if_neg hk, ih]
        simp [List.filter_cons, hk]
  rw [h expanded 0, zero_add]

theorem HEInvIff_record {est : Int} {h e : JsMap} (hinv : HEInvIff est h e) (k hv : Int) :
    HEInvIff est (h.set k hv) (if hv ≠ est then e.set k hv else e.delete k) := by
  intro k2 v2 hget
  by_cases hk : k2 = k
  · subst hk
    rw [JsMap.get?_set_self] at hget
    injection hget with hveq
    by_cases hne : hv = est
    · rw [if_neg (not_not_intro hne), ← hveq]
      simp [JsMap.has_delete_self, hne]
    · rw [if_pos hne, ← hveq]
      simp [JsMap.has_set_self, hne]
  · rw [JsMap.get?_set_ne _ _ _ _ hk] at hget
    have hbase := hinv k2 v2 hget
    by_cases hcond : hv ≠ est
    · rw [if_pos hcond, JsMap.has_set_ne _ _ _ _ hk]
      exact hbase
    · rw [if_neg hcond, JsMap.has_delete_ne _ _ _ hk]
      exact hbase

theorem HEInvSub_record {h e : JsMap} (hinv : HEInvSub h e) (est k hv : Int) :
    HEInvSub (h.set k hv) (if hv ≠ est then e.set k hv else e.delete k) := by
  intro k2 hk2
  by_cases hk : k2 = k
  · subst hk
    exact JsMap.has_set_self h k2 hv
  · by_cases hcond : hv ≠ est
    · rw [if_pos hcond, JsMap.has_set_ne _ _ _ _ hk] at hk2
      exact JsMap.has_set_mono _ _ _ _ (hinv k2 hk2)
    · rw [if_neg hcond, JsMap.has_delete_ne _ _ _ hk] at hk2
      exact JsMap.has_set_mono _ _ _ _ (hinv k2 hk2)

theorem HEInvIff_hdelete {est : Int} {h e : JsMap} (hinv : HEInvIff est h e) (k : Int) :
    HEInvIff est (h.delete k) e := by
  intro k2 v2 hget
  by_cases hk : k2 = k
  · subst hk
    rw [JsMap.get?_delete_self] at hget
    cases hget
  · rw [JsMap.get?_delete_ne _ _ _ hk] at hget
    exact hinv k2 v2 hget

theorem HEInvIff_discard_core {est : Int} {h e : JsMap} (hinv : HEInvIff est h e) (k : Int) :
    HEInvIff est (h.set k est) (e.delete k) := by
  intro k2 v2 hget
  by_cases hk : k2 = k
  · subst hk
    rw [JsMap.get?_set_self] at hget
    injection hget with hveq
    rw [← hveq]
    simp [JsMap.has_delete_self]
  · rw [JsMap.get?_set_ne _ _ _ _ hk] at hget
    rw [JsMap.has_delete_ne _ _ _ hk]
    exact hinv k2 v2 hget

theorem HEInvIff_edelete {est : Int} {h e : JsMap} (hinv : HEInvIff est h e) (k : Int)
    (hmiss : h.has k = false) : HEInvIff est h (e.delete k) := by
  intro k2 v2 hget
  by_cases hk : k2 = k
  · subst hk
    rw [JsMap.has] at hmiss
    rw [hget] at hmiss
    cases hmiss
  · rw [JsMap.has_delete_ne _ _ _ hk]
    exact hinv k2 v2 hget

theorem HEInvSub_discard_core {h e : JsMap} (hinv : HEInvSub h e) (est k : Int) :
    HEInvSub (h.set k est) (e.delete k) := by
  intro k2 hk2
  by_cases hk : k2 = k
  · subst hk
    rw [JsMap.has_delete_self] at hk2
    cases hk2
  · rw [JsMap.has_delete_ne _ _ _ hk] at hk2
    exact JsMap.has_set_mono _ _ _ _ (hinv k2 hk2)

theorem HEInvSub_edelete {h e : JsMap} (hinv : HEInvSub h e) (k : Int) :
    HEInvSub h (e.delete k) := by
  intro k2 hk2
  by_cases hk : k2 = k
  · subst hk
    rw [JsMap.has_delete_self] at hk2
    cases hk2
  · rw [JsMap.has_delete_ne _ _ _ hk] at hk2
    exact hinv k2 hk2

theorem HEInvIff_empty (est : Int) : HEInvIff est [] [] := by
  intro k v hget
  simp [JsMap.get?] at hget

theorem HEInvSub_empty : HEInvSub [] [] := by
  intro k hk
  simp [JsMap.has, JsMap.get?] at hk

/-! Per-operation lemmas for the view state. -/

theorem rangeListN_cons (n : Nat) (lo : Int) :
    rangeListN (n + 1) lo = lo :: rangeListN n (lo + 1) := rfl

theorem rangeList_cons {lo hi : Int} (h : lo ≤ hi) :
    rangeList lo hi = lo :: rangeList (lo + 1) hi := by
  unfold rangeList
  have heq : (hi + 1 - lo).toNat = (hi + 1 - (lo + 1)).toNat + 1 := by omega
  rw [heq]
  rfl

theorem rangeList_nil {lo hi : Int} (h : hi < lo) : rangeList lo hi = [] := by
  unfold rangeList
  have heq : (hi + 1 - lo).toNat = 0 := by omega
  rw [heq]
  rfl

theorem rangeList_single (i : Int) : rangeList i i = [i] := by
  rw [rangeList_cons (le_refl i), rangeList_nil (by omega)]

theorem updatePositionsStep_heights (cfg : ViewConfig) (measure : Int → Int) (first : Int)
    (acc : JsMap × JsMap × JsMap × Int) (i : Int) :
    (updatePositionsStep cfg measure first acc i).2.1 =
      acc.2.1.set i (getElementHeightWithOffset cfg (measure i)) := by
  unfold updatePositionsStep
  by_cases hfi : i = first
  · rw [if_pos hfi]
  · rw [if_neg hfi]

theorem updatePositionsStep_expanded (cfg : ViewConfig) (measure : Int → Int) (first : Int)
    (acc : JsMap × JsMap × JsMap × Int) (i : Int) :
    (updatePositionsStep cfg measure first acc i).2.2.1 =
      (if getElementHeightWithOffset cfg (measure i) ≠ getEstimatedElementHeightWithOffset cfg
        then acc.2.2.1.set i (getElementHeightWithOffset cfg (measure i))
        else acc.2.2.1.delete i) := by
  unfold updatePositionsStep
  by_cases hfi : i = first
  · rw [if_pos hfi]
  · rw [if_neg hfi]

theorem updatePositionsStep_positions (cfg : ViewConfig) (measure : Int → Int) (first : Int)
    (acc : JsMap × JsMap × JsMap × Int) (i : Int) :
    (updatePositionsStep cfg measure first acc i).1 =
      (if i = first then acc.1 else acc.1.set i acc.2.2.2) := by
  unfold updatePositionsStep
  by_cases hfi : i = first
  · rw [if_pos hfi, if_pos hfi]
  · rw [if_neg hfi, if_neg hfi]

theorem updateFold_HEInvIff (cfg : ViewConfig) (measure : Int → Int) (first : Int)
    (idxs : List Int) :
    ∀ (acc : JsMap × JsMap × JsMap × Int),
    HEInvIff (getEstimatedElementHeightWithOffset cfg) acc.2.1 acc.2.2.1 →
    HEInvIff (getEstimatedElementHeightWithOffset cfg)
      (idxs.foldl (updatePositionsStep cfg measure first) acc).2.1
      (idxs.foldl (updatePositionsStep cfg measure first) acc).2.2.1 := by
  induction idxs with
  | nil => exact fun acc h => h
  | cons i rest ih =>
    intro acc h
    rw [List.foldl_cons]
    apply ih
    rw [updatePositionsStep_heights, updatePositionsStep_expanded]
    exact HEInvIff_record h i _

theorem updateFold_HEInvSub (cfg : ViewConfig) (measure : Int → Int) (first : Int)
    (idxs : List Int) :
    ∀ (acc : JsMap × JsMap × JsMap × Int),
    HEInvSub acc.2.1 acc.2.2.1 →
    HEInvSub (idxs.foldl (updatePositionsStep cfg measure first) acc).2.1
      (idxs.foldl (updatePositionsStep cfg measure first) acc).2.2.1 := by
  induction idxs with
  | nil => exact fun acc h => h
  | cons i rest ih =>
    intro acc h
    rw [List.foldl_cons]
    apply ih
    rw [updatePositionsStep_heights, updatePositionsStep_expanded]
    exact HEInvSub_record h _ i _

theorem updatePositions_HEInvIff {cfg : ViewConfig} {count : Nat} {measure : Int → Int}
    {s : ViewState} (h : ExpandedIffInv cfg s) :
    ExpandedIffInv cfg (updatePositions cfg count measure s) := by
  unfold updatePositions
  by_cases hc : count = 0
  · rw [if_pos hc]
    exact h
  · rw [if_neg hc]
    exact updateFold_HEInvIff cfg measure s.visibleItems.1 _ _ h

theorem updatePositions_HEInvSub {cfg : ViewConfig} {count : Nat} {measure : Int → Int}
    {s : ViewState} (h : ExpandedSubInv s) :
    ExpandedSubInv (updatePositions cfg count measure s) := by
  unfold updatePositions
  by_cases hc : count = 0
  · rw [if_pos hc]
    exact h
  · rw [if_neg hc]
    exact updateFold_HEInvSub cfg measure s.visibleItems.1 _ _ h

theorem createItem_HEInvIff {cfg : ViewConfig} {s : ViewState} (hasChildView : Bool)
    (index rawHeight : Int) (h : ExpandedIffInv cfg s) :
    ExpandedIffInv cfg (createItem cfg hasChildView s index rawHeight) := by
  unfold createItem
  have h1 : ExpandedIffInv cfg
      (if s.isEmptyView then clearState { s with isEmptyView := false } else s) := by
    by_cases hev : s.isEmptyView
    · rw [if_pos hev]
      exact HEInvIff_empty _
    · rw [if_neg hev]
      exact h
  cases hasChildView with
  | false => exact h1
  | true => exact HEInvIff_record h1 index _

theorem createItem_HEInvSub {cfg : ViewConfig} {s : ViewState} (hasChildView : Bool)
    (index rawHeight : Int) (h : ExpandedSubInv s) :
    ExpandedSubInv (createItem cfg hasChildView s index rawHeight) := by
  unfold createItem
  have h1 : ExpandedSubInv
      (if s.isEmptyView then clearState { s with isEmptyView := false } else s) := by
    by_cases hev : s.isEmptyView
    · rw [if_pos hev]
      exact HEInvSub_empty
    · rw [if_neg hev]
      exact h
  cases hasChildView with
  | false => exact h1
  | true => exact HEInvSub_record h1 _ index _

theorem evict_HEInvIff {cfg : ViewConfig} {s : ViewState} (index : Int)
    (h : ExpandedIffInv cfg s) : ExpandedIffInv cfg (onIndexRemovedFromCache s index) :=
  HEInvIff_hdelete h index

theorem clearState_HEInvIff {cfg : ViewConfig} (s : ViewState) :
    ExpandedIffInv cfg (clearState s) := HEInvIff_empty _

theorem clearState_HEInvSub (s : ViewState) : ExpandedSubInv (clearState s) := HEInvSub_empty

theorem discard_eq_none {cfg : ViewConfig} {count : Nat} {collection : List Int}
    {measure : Int → Int} {s : ViewState} {id : Int}
    (hidx : getIndexById collection id = none) :
    discardExpandedStateById cfg count collection measure s id =
      updatePositions cfg count measure s := by
  simp only [discardExpandedStateById, hidx]

theorem discard_eq_notExpanded {cfg : ViewConfig} {count : Nat} {collection : List Int}
    {measure : Int → Int} {s : ViewState} {id index : Int}
    (hidx : getIndexById collection id = some index)
    (hexp : s.expandedHeightsMap.has index = false) :
    discardExpandedStateById cfg count collection measure s id =
      updatePositions cfg count measure s := by
  simp only [discardExpandedStateById, hidx, hexp]
  rfl

theorem discard_eq_noHeight {cfg : ViewConfig} {count : Nat} {collection : List Int}
    {measure : Int → Int} {s : ViewState} {id index : Int}
    (hidx : getIndexById collection id = some index)
    (hexp : s.expandedHeightsMap.has index = true)
    (hh : s.heightsMap.has index = false) :
    discardExpandedStateById cfg count collection measure s id =
      updatePositions cfg count measure
        { s with expandedHeightsMap := s.expandedHeightsMap.delete index } := by
  simp only [discardExpandedStateById, hidx, hexp, hh]
  rfl

theorem discard_eq_main {cfg : ViewConfig} {count : Nat} {collection : List Int}
    {measure : Int → Int} {s : ViewState} {id index : Int}
    (hidx : getIndexById collection id = some index)
    (hexp : s.expandedHeightsMap.has index = true)
    (hh : s.heightsMap.has index = true) :
    discardExpandedStateById cfg count collection measure s id =
      updatePositions cfg count measure
        { s with
          expandedHeightsMap := s.expandedHeightsMap.delete index,
          heightsMap := s.heightsMap.set index (getEstimatedElementHeightWithOffset cfg),
          positionsMap := ((rangeList index (positionsMaxIndex s.positionsMap)).foldl
              (discardPositionsStep index
                (s.heightsMap.set index (getEstimatedElementHeightWithOffset cfg)))
              (s.positionsMap, 0)).1 } := by
  simp only [discardExpandedStateById, hidx, hexp, hh]
  rfl

theorem discard_HEInvIff {cfg : ViewConfig} {count : Nat} {collection : List Int}
    {measure : Int → Int} {s : ViewState} (id : Int) (h : ExpandedIffInv cfg s) :
    ExpandedIffInv cfg (discardExpandedStateById cfg count collection measure s id) := by
  rcases hidx : getIndexById collection id with _ | index
  · rw [discard_eq_none hidx]
    exact updatePositions_HEInvIff h
  · by_cases hexp : s.expandedHeightsMap.has index = true
    · by_cases hh : s.heightsMap.has index = true
      · rw [discard_eq_main hidx hexp hh]
        exact updatePositions_HEInvIff (HEInvIff_discard_core h index)
      · rw [discard_eq_noHeight hidx hexp (Bool.not_eq_true _ ▸ hh)]
        exact updatePositions_HEInvIff (HEInvIff_edelete h index (Bool.not_eq_true _ ▸ hh))
    · rw [discard_eq_notExpanded hidx (Bool.not_eq_true _ ▸ hexp)]
      exact updatePositions_HEInvIff h

theorem discard_HEInvSub {cfg : ViewConfig} {count : Nat} {collection : List Int}
    {measure : Int → Int} {s : ViewState} (id : Int) (h : ExpandedSubInv s) :
    ExpandedSubInv (discardExpandedStateById cfg count collection measure s id) := by
  rcases hidx : getIndexById collection id with _ | index
  · rw [discard_eq_none hidx]
    exact updatePositions_HEInvSub h
  · by_cases hexp : s.expandedHeightsMap.has index = true
    · by_cases hh : s.heightsMap.has index = true
      · rw [discard_eq_main hidx hexp hh]
        exact updatePositions_HEInvSub (HEInvSub_discard_core h _ index)
      · rw [discard_eq_noHeight hidx hexp (Bool.not_eq_true _ ▸ hh)]
        exact updatePositions_HEInvSub (HEInvSub_edelete h index)
    · rw [discard_eq_notExpanded hidx (Bool.not_eq_true _ ▸ hexp)]
      exact updatePositions_HEInvSub h
theorem JsMap.has_iff_get {m : JsMap} {k : Int} :
    m.has k = true ↔ ∃ v, m.get? k = some v := by
  unfold JsMap.has
  cases m.get? k <;> simp

theorem updatePositions_single_noop (cfg : ViewConfig) (count : Nat) (measure : Int → Int)
    (s : ViewState) (i : Int)
    (hvis : s.visibleItems = (i, i))
    (hmeas : measure i = cfg.estimatedItemHeight)
    (hh : s.heightsMap.get? i = some (getEstimatedElementHeightWithOffset cfg))
    (hexp : s.expandedHeightsMap.has i = false) :
    (updatePositions cfg count measure s).positionsMap = s.positionsMap ∧
    (updatePositions cfg count measure s).heightsMap = s.heightsMap ∧
    (updatePositions cfg count measure s).expandedHeightsMap = s.expandedHeightsMap := by
  have hheight : getElementHeightWithOffset cfg (measure i) =
      getEstimatedElementHeightWithOffset cfg := by
    unfold getElementHeightWithOffset getEstimatedElementHeightWithOffset
    rw [hmeas]
  unfold updatePositions
  by_cases hc : count = 0
  · rw [if_pos hc]
    exact ⟨rfl, rfl, rfl⟩
  · rw [if_neg hc]
    simp only [hvis]
    rw [rangeList_single, List.foldl_cons, List.foldl_nil]
    refine ⟨?_, ?_, ?_⟩
    · rw [updatePositionsStep_positions, if_pos rfl]
    · rw [updatePositionsStep_heights]
      rw [hheight, JsMap.set_of_get_eq _ _ _ hh]
    · rw [updatePositionsStep_expanded, hheight, if_neg (not_not_intro rfl)]
      exact JsMap.delete_of_has_false _ _ hexp

theorem discardFold_go (index : Int) (hs : JsMap) (pv hv : Int → Int) (delta : Int) :
    ∀ (n : Nat) (a : Int) (P : JsMap) (acc : Int),
    index < a →
    (∀ j : Int, a ≤ j → j < a + n → hs.get? j = some (hv j)) →
    (∀ j : Int, a ≤ j → j + 1 < a + n → pv (j + 1) = pv j + hv j) →
    (n ≠ 0 → acc = pv a - delta) →
    (∀ j : Int, a ≤ j → j < a + n →
      ((rangeListN n a).foldl (discardPositionsStep index hs) (P, acc)).1.get? j
        = some (pv j - delta)) ∧
    (∀ j : Int, j < a ∨ a + n ≤ j →
      ((rangeListN n a).foldl (discardPositionsStep index hs) (P, acc)).1.get? j
        = P.get? j) := by
  intro n
  induction n with
  | zero =>
    intro a P acc hia hhs hch hacc
    refine ⟨?_, ?_⟩
    · intro j hj1 hj2
      exfalso
      omega
    · intro j hj
      rfl
  | succ n ih =>
    intro a P acc hia hhs hch hacc
    rw [rangeListN_cons, List.foldl_cons]
    have hstep : discardPositionsStep index hs (P, acc) a = (P.set a acc, acc + hv a) := by
      unfold discardPositionsStep
      rw [if_neg (by omega : ¬ a = index)]
      simp only
      rw [hhs a (le_refl a) (by omega)]
      rfl
    rw [hstep]
    have hacc1 : acc = pv a - delta := hacc (by omega)
    have ihres := ih (a + 1) (P.set a acc) (acc + hv a) (by omega)
      (fun j hj1 hj2 => hhs j (by omega) (by omega))
      (fun j hj1 hj2 => hch j (by omega) (by omega))
      (fun hn => by
        rw [hacc1, hch a (le_refl a) (by omega)]
        ring)
    refine ⟨?_, ?_⟩
    · intro j hj1 hj2
      by_cases hj : j = a
      · subst hj
        rw [ihres.2 j (Or.inl (by omega))]
        rw [JsMap.get?_set_self, hacc1]
      · rw [ihres.1 j (by omega) (by omega)]
    · intro j hj
      rw [ihres.2 j (by omega)]
      exact JsMap.get?_set_ne _ _ _ _ (by omega)
/-- C6: discarding the expanded state of a materialized, expanded index removes
it from the expanded ledger, resets its recorded height to the estimate, leaves
its own recorded position unchanged, and lowers the recorded position of every
higher ledger index by exactly `oldHeight - estimatedHeight`. -/
theorem discardExpandedState_spec (cfg : ViewConfig) (count : Nat) (collection : List Int)
    (measure : Int → Int) (s : ViewState) (id i oldH pI : Int)
    (hid : getIndexById collection id = some i)
    (hexp : s.expandedHeightsMap.has i = true)
    (hold : s.heightsMap.get? i = some oldH)
    (hvis : s.visibleItems = (i, i))
    (hmeas : measure i = cfg.estimatedItemHeight)
    (hpos : s.positionsMap.get? i = some pI)
    (hcover : ∀ j : Int, i ≤ j → j ≤ positionsMaxIndex s.positionsMap →
      s.positionsMap.has j = true ∧ s.heightsMap.has j = true)
    (hchain : ∀ j p h : Int, i ≤ j → j < positionsMaxIndex s.positionsMap →
      s.positionsMap.get? j = some p → s.heightsMap.get? j = some h →
      s.positionsMap.get? (j + 1) = some (p + h)) :
    (discardExpandedStateById cfg count collection measure s id).expandedHeightsMap
        = s.expandedHeightsMap.delete i ∧
    (discardExpandedStateById cfg count collection measure s id).heightsMap
        = s.heightsMap.set i (getEstimatedElementHeightWithOffset cfg) ∧
    (discardExpandedStateById cfg count collection measure s id).positionsMap.get? i
        = s.positionsMap.get? i ∧
    (∀ j p : Int, i < j → s.positionsMap.get? j = some p →
      (discardExpandedStateById cfg count collection measure s id).positionsMap.get? j
        = some (p - (oldH - getEstimatedElementHeightWithOffset cfg))) := by
  set est := getEstimatedElementHeightWithOffset cfg with hest
  have hh : s.heightsMap.has i = true := by
    rw [JsMap.has, hold]
    rfl
  rw [discard_eq_main hid hexp hh]
  set M := positionsMaxIndex s.positionsMap with hM
  have hiM : i ≤ M := key_le_positionsMaxIndex hpos
  set hsM := s.heightsMap.set i est with hhs
  have hsMi : hsM.get? i = some est := JsMap.get?_set_self _ _ _
  -- the re-propagation fold
  set n := (M + 1 - (i + 1)).toNat with hn
  have hrl : rangeList i M = i :: rangeListN n (i + 1) := by
    rw [rangeList_cons hiM]
    rfl
  have hstep0 : discardPositionsStep i hsM (s.positionsMap, 0) i
      = (s.positionsMap, pI + est) := by
    unfold discardPositionsStep
    rw [if_pos rfl, hpos, hsMi]
    rfl
  have hgo := discardFold_go i hsM
      (fun j => (s.positionsMap.get? j).getD 0)
      (fun j => (s.heightsMap.get? j).getD 0)
      (oldH - est) n (i + 1) s.positionsMap (pI + est)
      (by omega)
      (by
        intro j hj1 hj2
        obtain ⟨h2, hh2⟩ := JsMap.has_iff_get.mp (hcover j (by omega) (by omega)).2
        simp only [JsMap.get?_set_ne _ _ _ _ (show j ≠ i by omega), hh2, Option.getD_some])
      (by
        intro j hj1 hj2
        obtain ⟨p2, hp2⟩ := JsMap.has_iff_get.mp (hcover j (by omega) (by omega)).1
        obtain ⟨h2, hh2⟩ := JsMap.has_iff_get.mp (hcover j (by omega) (by omega)).2
        have hnext := hchain j p2 h2 (by omega) (by omega) hp2 hh2
        simp only [hnext, hp2, hh2, Option.getD_some])
      (by
        intro hn0
        have hiltM : i < M := by omega
        have hnext := hchain i pI oldH (le_refl i) hiltM hpos hold
        simp only [hnext, Option.getD_some]
        ring)
  -- the state handed to the trailing updatePositions pass
  set s2 : ViewState :=
      { s with
        expandedHeightsMap := s.expandedHeightsMap.delete i,
        heightsMap := hsM,
        positionsMap := ((rangeList i M).foldl (discardPositionsStep i hsM)
            (s.positionsMap, 0)).1 } with hs2
  have hnoop := updatePositions_single_noop cfg count measure s2 i hvis hmeas
      (by rw [hs2]; exact hsMi)
      (by rw [hs2]; exact JsMap.has_delete_self _ _)
  have hfold : s2.positionsMap = ((rangeListN n (i + 1)).foldl
      (discardPositionsStep i hsM) (s.positionsMap, pI + est)).1 := by
    rw [hs2]
    simp only
    rw [hrl, List.foldl_cons, hstep0]
  refine ⟨?_, ?_, ?_, ?_⟩
  · rw [hnoop.2.2, hs2]
  · rw [hnoop.2.1, hs2]
  · rw [hnoop.1, hfold]
    exact hgo.2 i (Or.inl (by omega))
  · intro j p hij hpj
    have hjM : j ≤ M := key_le_positionsMaxIndex hpj
    rw [hnoop.1, hfold]
    simp only [hgo.1 j (by omega) (by omega), hpj, Option.getD_some]
theorem getVisibleItems_eq (cfg : ViewConfig) (count : Nat) (scrollTop clientHeight : Int) :
    getVisibleItems cfg count scrollTop clientHeight =
      (max (Int.fdiv (scrollTop - getScrollThreshold cfg)
          (getEstimatedElementHeightWithOffset cfg)) 0,
        min (Int.fdiv (scrollTop + clientHeight + getScrollThreshold cfg)
          (getEstimatedElementHeightWithOffset cfg)) ((count : Int) - 1)) := rfl

theorem getVisibleItems_empty_of_count_zero (cfg : ViewConfig) (scrollTop clientHeight : Int) :
    (getVisibleItems cfg 0 scrollTop clientHeight).2
      < (getVisibleItems cfg 0 scrollTop clientHeight).1 := by
  unfold getVisibleItems
  simp only
  have h1 : (0 : Int) ≤ max (Int.fdiv (scrollTop - getScrollThreshold cfg)
      (getEstimatedElementHeightWithOffset cfg)) 0 := le_max_right _ _
  have h2 : min (Int.fdiv (scrollTop + clientHeight + getScrollThreshold cfg)
      (getEstimatedElementHeightWithOffset cfg)) ((0 : Nat) - 1 : Int) ≤ ((0 : Nat) - 1 : Int) :=
    min_le_right _ _
  omega

theorem getVisibleItems_nonempty (cfg : ViewConfig) (count : Nat) (scrollTop clientHeight : Int)
    (hpos : 0 < getEstimatedElementHeightWithOffset cfg)
    (hcount : 0 < count)
    (hst : 0 ≤ scrollTop)
    (hch : 0 ≤ clientHeight)
    (hinside : scrollTop - getScrollThreshold cfg
      < (count : Int) * getEstimatedElementHeightWithOffset cfg) :
    (getVisibleItems cfg count scrollTop clientHeight).1
      ≤ (getVisibleItems cfg count scrollTop clientHeight).2 := by
  unfold getVisibleItems
  simp only
  set h := getEstimatedElementHeightWithOffset cfg with hh
  have hth : getScrollThreshold cfg = h := rfl
  rw [hth]
  have hle : (0 : Int) ≤ h := le_of_lt hpos
  rw [Int.fdiv_eq_ediv _ hle, Int.fdiv_eq_ediv _ hle]
  have hA : (scrollTop - h) / h ≤ (scrollTop + clientHeight + h) / h :=
    Int.ediv_le_ediv hpos (by omega)
  have hB : (0 : Int) ≤ (scrollTop + clientHeight + h) / h :=
    Int.ediv_nonneg (by omega) hle
  have hC : (scrollTop - h) / h ≤ (count : Int) - 1 := by
    have := (Int.ediv_lt_iff_lt_mul hpos).mpr (by
      calc scrollTop - h < (count : Int) * h := hinside
        _ = (count : Int) * h := rfl)
    omega
  have hD : (0 : Int) ≤ (count : Int) - 1 := by
    have : (1 : Int) ≤ (count : Int) := by exact_mod_cast hcount
    omega
  rw [max_le_iff, le_min_iff, le_min_iff]
  exact ⟨⟨hA, hC⟩, ⟨hB, hD⟩⟩
theorem getIndexByIdAux_eq_none {collection : List Int} {id : Int} (h : id ∉ collection) :
    ∀ i : Nat, getIndexByIdAux collection id i = none := by
  induction collection with
  | nil => intro i; rfl
  | cons x rest ih =>
    intro i
    have hx : ¬ (x = id) := fun he => h (by rw [he]; exact List.mem_cons_self _ _)
    have hrest : id ∉ rest := fun he => h (List.mem_cons_of_mem _ he)
    rw [getIndexByIdAux, if_neg hx]
    exact ih hrest (i + 1)

theorem getIndexById_eq_none {collection : List Int} {id : Int} (h : id ∉ collection) :
    getIndexById collection id = none := getIndexByIdAux_eq_none h 0

theorem take_drop_of_not_gt {l : List Int} {n : Nat} (h : ¬ l.length > n) :
    l.take n = l ∧ l.drop n = [] := by
  constructor
  · exact List.take_of_length_le (by omega)
  · exact List.drop_eq_nil_of_le (by omega)

/-! Claim theorems, counterexamples and witnesses. -/

/-- C1 counterexample: with count = 1, estimated height 40, no offset, scroll
offset 1000 and viewport 200, `_getVisibleItems` yields the range `[24, 0]`,
which is empty although the count is nonzero, so "empty iff count == 0" fails
as universally stated. -/
theorem visibleRange_empty_iff_counterexample :
    getVisibleItems ⟨40, 0, false⟩ 1 1000 200 = (24, 0) ∧
    (getVisibleItems ⟨40, 0, false⟩ 1 1000 200).2
      < (getVisibleItems ⟨40, 0, false⟩ 1 1000 200).1 ∧
    (1 : Nat) ≠ 0 := by
  refine ⟨by decide, by decide, by decide⟩

/-- C1 (amended): `_getVisibleItems` computes exactly the claimed formula with
the threshold fixed at one estimated item height; the range is empty when the
count is 0; conversely, for a positive count, nonnegative scroll offset and
viewport, and a scroll offset not past the end of the estimated content
(`scrollOffset - threshold < count * itemHeight`), the range is nonempty; and
the claimed scenario count=1000, itemHeight=40, offset=0, viewport=200,
threshold=40 yields `[0, 6]`. -/
theorem visibleRange_spec (cfg : ViewConfig) (count : Nat) (scrollTop clientHeight : Int) :
    getVisibleItems cfg count scrollTop clientHeight =
      (max (Int.fdiv (scrollTop - getScrollThreshold cfg)
          (getEstimatedElementHeightWithOffset cfg)) 0,
        min (Int.fdiv (scrollTop + clientHeight + getScrollThreshold cfg)
          (getEstimatedElementHeightWithOffset cfg)) ((count : Int) - 1)) ∧
    (count = 0 → (getVisibleItems cfg count scrollTop clientHeight).2
      < (getVisibleItems cfg count scrollTop clientHeight).1) ∧
    (0 < getEstimatedElementHeightWithOffset cfg → 0 < count → 0 ≤ scrollTop →
      0 ≤ clientHeight →
      scrollTop - getScrollThreshold cfg
        < (count : Int) * getEstimatedElementHeightWithOffset cfg →
      (getVisibleItems cfg count scrollTop clientHeight).1
        ≤ (getVisibleItems cfg count scrollTop clientHeight).2) ∧
    getVisibleItems ⟨40, 0, false⟩ 1000 0 200 = (0, 6) := by
  refine ⟨getVisibleItems_eq cfg count scrollTop clientHeight, ?_, ?_, by decide⟩
  · intro hc
    subst hc
    exact getVisibleItems_empty_of_count_zero cfg scrollTop clientHeight
  · intro h1 h2 h3 h4 h5
    exact getVisibleItems_nonempty cfg count scrollTop clientHeight h1 h2 h3 h4 h5

/-- C1 witness: the amended theorem applied at the claimed scenario. -/
theorem visibleRange_spec_witness :
    (getVisibleItems ⟨40, 0, false⟩ 1000 0 200).1
      ≤ (getVisibleItems ⟨40, 0, false⟩ 1000 0 200).2 :=
  (visibleRange_spec ⟨40, 0, false⟩ 1000 0 200).2.2.1 (by decide) (by decide) (by decide)
    (by decide) (by decide)

/-- C2 counterexample: with capacity shrunk to 1 and recency array `[3, 2, 1]`,
putting 4 evicts `[3, 2, 1]` in that callback order — most recently touched
first — not in the claimed oldest-evicted-first order `[1, 2, 3]`. -/
theorem lru_put_evictionOrder_counterexample :
    ((lruRun 3 [LruOp.put 1, LruOp.put 2, LruOp.put 3, LruOp.setCapacity 1]).put 4).2.2
      = [3, 2, 1] ∧ ([3, 2, 1] : List Int) ≠ [1, 2, 3] := by
  refine ⟨by decide, by decide⟩

/-- C2 (amended): for a consistent cache, `put` of a present value returns
`false`, moves the value to the front of the recency array, leaves the
membership set unchanged and evicts nothing; `put` of an absent value returns
`true`, keeps the first `capacity` entries of the front-extended recency array
and evicts exactly the entries beyond capacity — the least recently touched
ones — each exactly once, in recency order (most recently touched first). -/
theorem lru_put_spec (c : LRUCache) (v : Int) (hcons : c.Consistent) :
    (v ∈ c.set →
      (c.put v).2.1 = false ∧ (c.put v).1.set = c.set ∧
      (c.put v).1.array = v :: c.array.erase v ∧ (c.put v).2.2 = [] ∧
      (∀ w : Int, w ∈ (c.put v).1.array ↔ w ∈ c.array)) ∧
    (v ∉ c.set →
      (c.put v).2.1 = true ∧
      (c.put v).1.array = (v :: c.array).take c.capacity ∧
      (c.put v).2.2 = (v :: c.array).drop c.capacity ∧
      (c.put v).2.2.Nodup ∧
      (c.put v).1.array ++ (c.put v).2.2 = v :: c.array) := by
  rcases hcons with ⟨hmem, hnd⟩
  constructor
  · intro hv
    have hva : v ∈ c.array := (hmem v).mp hv
    have hput : c.put v = ({ c with array := v :: c.array.erase v }, false, []) := by
      simp only [LRUCache.put, if_pos hv]
    rw [hput]
    refine ⟨rfl, rfl, rfl, rfl, ?_⟩
    intro w
    rw [List.mem_cons]
    constructor
    · rintro (hw | hw)
      · rw [hw]; exact hva
      · exact List.mem_of_mem_erase hw
    · intro hw
      by_cases hwv : w = v
      · exact Or.inl hwv
      · exact Or.inr ((List.mem_erase_of_ne hwv).mpr hw)
  · intro hv
    have hva : v ∉ c.array := fun h2 => hv ((hmem v).mpr h2)
    have harrnd : (v :: c.array).Nodup := List.nodup_cons.mpr ⟨hva, hnd⟩
    by_cases hlen : (v :: c.array).length > c.capacity
    · have hput : c.put v =
          (⟨c.capacity, ((v :: c.array).drop c.capacity).foldl jsSetDelete
              (jsSetAdd c.set v), (v :: c.array).take c.capacity⟩,
            true, (v :: c.array).drop c.capacity) := by
        simp only [LRUCache.put, if_neg hv, if_pos hlen]
      rw [hput]
      refine ⟨rfl, rfl, rfl, ?_, ?_⟩
      · exact harrnd.sublist (List.drop_sublist c.capacity (v :: c.array))
      · exact List.take_append_drop c.capacity (v :: c.array)
    · have hput : c.put v =
          (⟨c.capacity, jsSetAdd c.set v, v :: c.array⟩, true, []) := by
        simp only [LRUCache.put, if_neg hv, if_neg hlen]
      obtain ⟨htake, hdrop⟩ := take_drop_of_not_gt hlen
      rw [hput]
      refine ⟨rfl, htake.symm, hdrop.symm, List.nodup_nil, List.append_nil _⟩

/-- C2 witness: the amended theorem applied to putting the absent value 3 into
a consistent two-element cache. -/
theorem lru_put_spec_witness :
    ((lruRun 10 [LruOp.put 1, LruOp.put 2]).put 3).2.1 = true ∧
    ((lruRun 10 [LruOp.put 1, LruOp.put 2]).put 3).1.array
      = (3 :: (lruRun 10 [LruOp.put 1, LruOp.put 2]).array).take
          (lruRun 10 [LruOp.put 1, LruOp.put 2]).capacity ∧
    ((lruRun 10 [LruOp.put 1, LruOp.put 2]).put 3).2.2
      = (3 :: (lruRun 10 [LruOp.put 1, LruOp.put 2]).array).drop
          (lruRun 10 [LruOp.put 1, LruOp.put 2]).capacity ∧
    ((lruRun 10 [LruOp.put 1, LruOp.put 2]).put 3).2.2.Nodup ∧
    ((lruRun 10 [LruOp.put 1, LruOp.put 2]).put 3).1.array
        ++ ((lruRun 10 [LruOp.put 1, LruOp.put 2]).put 3).2.2
      = 3 :: (lruRun 10 [LruOp.put 1, LruOp.put 2]).array :=
  (lru_put_spec (lruRun 10 [LruOp.put 1, LruOp.put 2]) 3
    (lruRun_consistent 10 [LruOp.put 1, LruOp.put 2])).2 (by decide)
/-- C3: function requests are serialized. For every sequence of external
stimuli, the observable trace follows the one-at-a-time alternation automaton
(at most one request active at a time), the requests that began followed by
the still-queued ones are exactly the submitted requests in submission order,
and between any two request-body starts a completion callback
(`_onFunctionRequestFinished`) has fired. -/
theorem function_requests_serialized (events : List SchedEv) :
    traceFold (schedRun events).trace = some (schedRun events).isFunctionActive ∧
    beginsOf (schedRun events).trace ++ (schedRun events).functionsQueue
      = requestsOf events ∧
    (∀ (t1 t2 t3 : List TraceEv) (r1 r2 : Nat),
      (schedRun events).trace
        = t1 ++ TraceEv.beginReq r1 :: (t2 ++ TraceEv.beginReq r2 :: t3) →
      TraceEv.finishReq ∈ t2) := by
  obtain ⟨hA, hB, hC⟩ := schedInv_run events
  exact ⟨hA, hC, fun t1 t2 t3 r1 r2 hdec => trace_serialized hA hdec⟩

/-- C3 witness: submitting requests 1 and 2 and then running a frame produces
the trace `[begin 1, finish, begin 2]`, and the serialization theorem applied
to its decomposition finds the completion callback between the two starts. -/
theorem function_requests_serialized_witness :
    TraceEv.finishReq ∈ [TraceEv.finishReq] :=
  (function_requests_serialized
      [SchedEv.addRequest 1, SchedEv.addRequest 2, SchedEv.frame]).2.2
    [] [TraceEv.finishReq] [] 1 2 (by decide)

/-- C4: `_obtainItemPosition` returns `position(index-1) + height(index-1)`
when the position ledger holds `index-1` (and the height ledger holds its
height), and otherwise returns `index * estimatedHeight` plus the sum of
`height - estimatedHeight` over the expanded entries with key below `index`. -/
theorem obtainItemPosition_spec (positions heights expanded : JsMap)
    (est index pp ph : Int) :
    (positions.get? (index - 1) = some pp → heights.get? (index - 1) = some ph →
      obtainItemPosition positions heights expanded est index = pp + ph) ∧
    (positions.has (index - 1) = false →
      obtainItemPosition positions heights expanded est index
        = index * est + overdraftSpecSum expanded est index) := by
  constructor
  · intro hp hh
    have hhas : positions.has (index - 1) = true := by
      rw [JsMap.has, hp]
      rfl
    unfold obtainItemPosition
    rw [if_pos hhas, hp, hh]
    rfl
  · intro hfalse
    unfold obtainItemPosition
    rw [if_neg (by rw [hfalse]; exact Bool.false_ne_true), heightOverdraftBelow_eq]

/-- C4 witness: a cold lookup at index 2 with expanded entries at 0 and 2 uses
only the entry below 2 for the overdraft. -/
theorem obtainItemPosition_spec_witness :
    obtainItemPosition [] [] [(0, 80), (2, 100)] 40 2
      = 2 * 40 + overdraftSpecSum [(0, 80), (2, 100)] 40 2 :=
  (obtainItemPosition_spec [] [] [(0, 80), (2, 100)] 40 2 0 0).2 (by decide)

/-- C5 counterexample: creating an expanded item at index 5 (measured 80,
estimate 40) and then evicting it from the cache leaves index 5 in the
expanded-heights map while removing it from the heights map, so the
subset invariant fails after a cache eviction. -/
theorem expanded_subset_counterexample :
    (onIndexRemovedFromCache (createItem ⟨40, 0, false⟩ true ViewState.init 5 80)
        5).expandedHeightsMap.has 5 = true ∧
    (onIndexRemovedFromCache (createItem ⟨40, 0, false⟩ true ViewState.init 5 80)
        5).heightsMap.has 5 = false := by
  refine ⟨by decide, by decide⟩

/-- C5 (amended): every operation — item creation, position update, cache
eviction, discard of expanded state, clear — preserves the invariant that an
index with a recorded height is in the expanded map iff that height differs
from the estimate; all of them except cache eviction also preserve the
invariant that every expanded key has a recorded height (eviction removes the
height but deliberately keeps the expanded entry). -/
theorem expanded_ledger_invariants (cfg : ViewConfig) (count : Nat)
    (collection : List Int) (measure : Int → Int) (s : ViewState)
    (hasChildView : Bool) (index rawHeight id : Int) :
    (ExpandedIffInv cfg s →
      ExpandedIffInv cfg (createItem cfg hasChildView s index rawHeight)) ∧
    (ExpandedIffInv cfg s →
      ExpandedIffInv cfg (updatePositions cfg count measure s)) ∧
    (ExpandedIffInv cfg s →
      ExpandedIffInv cfg (discardExpandedStateById cfg count collection measure s id)) ∧
    (ExpandedIffInv cfg s → ExpandedIffInv cfg (onIndexRemovedFromCache s index)) ∧
    ExpandedIffInv cfg (clearState s) ∧
    (ExpandedSubInv s → ExpandedSubInv (createItem cfg hasChildView s index rawHeight)) ∧
    (ExpandedSubInv s → ExpandedSubInv (updatePositions cfg count measure s)) ∧
    (ExpandedSubInv s →
      ExpandedSubInv (discardExpandedStateById cfg count collection measure s id)) ∧
    ExpandedSubInv (clearState s) := by
  refine ⟨fun h => createItem_HEInvIff hasChildView index rawHeight h,
    fun h => updatePositions_HEInvIff h,
    fun h => discard_HEInvIff id h,
    fun h => evict_HEInvIff index h,
    clearState_HEInvIff s,
    fun h => createItem_HEInvSub hasChildView index rawHeight h,
    fun h => updatePositions_HEInvSub h,
    fun h => discard_HEInvSub id h,
    clearState_HEInvSub s⟩

/-- C5 witness: creation of an item in the freshly initialized view preserves
the iff invariant, starting from the trivially satisfied empty ledgers. -/
theorem expanded_ledger_invariants_witness :
    ExpandedIffInv ⟨40, 0, false⟩ (createItem ⟨40, 0, false⟩ true ViewState.init 5 80) :=
  (expanded_ledger_invariants ⟨40, 0, false⟩ 0 [] (fun _ => 0) ViewState.init
    true 5 80 0).1 (HEInvIff_empty _)
/-- C6 witness: the discard theorem applied to a concrete three-item view with
item 1 expanded (height 80, estimate 40): the expanded entry disappears, the
height resets to 40, position 1 stays 40, and position 2 drops from 120 to 80. -/
theorem discardExpandedState_spec_witness :
    (discardExpandedStateById ⟨40, 0, false⟩ 3 [100, 101, 102] (fun _ => 40)
        ⟨[0, 1, 2], [(0, 0), (1, 40), (2, 120)], [(0, 40), (1, 80), (2, 40)],
          [(1, 80)], (1, 1), 0, false, LRUCache.init 10⟩ 101).expandedHeightsMap
      = JsMap.delete [(1, 80)] 1 ∧
    (discardExpandedStateById ⟨40, 0, false⟩ 3 [100, 101, 102] (fun _ => 40)
        ⟨[0, 1, 2], [(0, 0), (1, 40), (2, 120)], [(0, 40), (1, 80), (2, 40)],
          [(1, 80)], (1, 1), 0, false, LRUCache.init 10⟩ 101).heightsMap
      = JsMap.set [(0, 40), (1, 80), (2, 40)] 1
          (getEstimatedElementHeightWithOffset ⟨40, 0, false⟩) ∧
    (discardExpandedStateById ⟨40, 0, false⟩ 3 [100, 101, 102] (fun _ => 40)
        ⟨[0, 1, 2], [(0, 0), (1, 40), (2, 120)], [(0, 40), (1, 80), (2, 40)],
          [(1, 80)], (1, 1), 0, false, LRUCache.init 10⟩ 101).positionsMap.get? 1
      = JsMap.get? [(0, 0), (1, 40), (2, 120)] 1 ∧
    (∀ j p : Int, 1 < j → JsMap.get? [(0, 0), (1, 40), (2, 120)] j = some p →
      (discardExpandedStateById ⟨40, 0, false⟩ 3 [100, 101, 102] (fun _ => 40)
          ⟨[0, 1, 2], [(0, 0), (1, 40), (2, 120)], [(0, 40), (1, 80), (2, 40)],
            [(1, 80)], (1, 1), 0, false, LRUCache.init 10⟩ 101).positionsMap.get? j
        = some (p - (80 - getEstimatedElementHeightWithOffset ⟨40, 0, false⟩))) :=
  discardExpandedState_spec ⟨40, 0, false⟩ 3 [100, 101, 102] (fun _ => 40)
    ⟨[0, 1, 2], [(0, 0), (1, 40), (2, 120)], [(0, 40), (1, 80), (2, 40)],
      [(1, 80)], (1, 1), 0, false, LRUCache.init 10⟩ 101 1 80 40
    (by decide) (by decide) (by decide) (by decide) (by decide) (by decide)
    (by
      intro j h1 h2
      have hM : positionsMaxIndex [((0 : Int), (0 : Int)), (1, 40), (2, 120)] = 2 := by
        decide
      rw [hM] at h2
      have hj : j = 1 ∨ j = 2 := by omega
      rcases hj with hj | hj <;> subst hj <;> exact ⟨by decide, by decide⟩)
    (by
      intro j p h hj1 hj2 hp hh
      have hM : positionsMaxIndex [((0 : Int), (0 : Int)), (1, 40), (2, 120)] = 2 := by
        decide
      rw [hM] at hj2
      have hj : j = 1 := by omega
      subst hj
      rw [show JsMap.get? [((0 : Int), (0 : Int)), (1, 40), (2, 120)] 1 = some 40
        from rfl] at hp
      rw [show JsMap.get? [((0 : Int), (40 : Int)), (1, 80), (2, 40)] 1 = some 80
        from rfl] at hh
      injection hp with hp2
      injection hh with hh2
      rw [← hp2, ← hh2]
      decide)

/-- C7 counterexample: after three puts at capacity 3, `setCapacity(1)` leaves
all three entries cached, so the size exceeds the capacity and no immediate
eviction happens. -/
theorem setCapacity_no_eviction_counterexample :
    (lruRun 3 [LruOp.put 1, LruOp.put 2, LruOp.put 3, LruOp.setCapacity 1]).capacity
      = 1 ∧
    (lruRun 3 [LruOp.put 1, LruOp.put 2, LruOp.put 3, LruOp.setCapacity 1]).array.length
      = 3 := by
  refine ⟨by decide, by decide⟩

/-- C7 (amended): `put` preserves the size bound `size ≤ capacity` on a
consistent cache and `clear` reestablishes it, but `setCapacity` only assigns
the capacity field — it never evicts, leaving the recency array untouched, so
the bound holds after `setCapacity n` exactly when the current size is at
most `n`. -/
theorem cache_capacity_spec (c : LRUCache) (v : Int) (n : Nat) (hcons : c.Consistent) :
    (c.array.length ≤ c.capacity →
      (c.put v).1.array.length ≤ (c.put v).1.capacity) ∧
    c.clear.array.length ≤ c.clear.capacity ∧
    (c.setCapacity n).array = c.array ∧
    (c.setCapacity n).capacity = n ∧
    ((c.setCapacity n).array.length ≤ (c.setCapacity n).capacity ↔ c.array.length ≤ n) := by
  refine ⟨fun h => put_length_le hcons v h, ?_, rfl, rfl, Iff.rfl⟩
  simp [LRUCache.clear]

/-- C7 witness: the amended theorem applied to a fresh capacity-3 cache. -/
theorem cache_capacity_spec_witness :
    ((LRUCache.init 3).put 5).1.array.length ≤ ((LRUCache.init 3).put 5).1.capacity :=
  (cache_capacity_spec (LRUCache.init 3) 5 2 (consistent_init 3)).1 (by decide)

/-- C8: a lookup with an id matching no model returns the `null` sentinel, and
the queued scroll operation given that `null` index returns without issuing a
scroll and leaves the entire per-item state (views, positions, heights,
expanded entries, cache) unchanged. -/
theorem unknown_id_noop (cfg : ViewConfig) (useIScroll : Bool)
    (maxScrollY clientHeight scrollHeight : Int) (collection : List Int) (id : Int)
    (s : ViewState) (h : id ∉ collection) :
    getIndexById collection id = none ∧
    scrollToElementByIndex cfg useIScroll maxScrollY clientHeight scrollHeight s
      (getIndexById collection id) = (s, none) := by
  have h1 : getIndexById collection id = none := getIndexById_eq_none h
  refine ⟨h1, ?_⟩
  rw [h1]
  rfl

/-- C8 witness: id 5 is absent from the two-element collection. -/
theorem unknown_id_noop_witness :
    getIndexById [1, 2] 5 = none ∧
    scrollToElementByIndex ⟨64, 1, false⟩ false 0 0 0 ViewState.init
      (getIndexById [1, 2] 5) = (ViewState.init, none) :=
  unknown_id_noop ⟨64, 1, false⟩ false 0 0 0 [1, 2] 5 ViewState.init (by decide)

/-- C9: after every operation sequence from a fresh cache, the membership set
and the recency array hold exactly the same values, the array has no
duplicates, `has` agrees with array membership, and `minimum` is `none`
exactly on the empty cache and otherwise the least cached value. -/
theorem lru_internal_consistency (capacity : Nat) (ops : List LruOp) :
    (∀ v : Int, v ∈ (lruRun capacity ops).set ↔ v ∈ (lruRun capacity ops).array) ∧
    (lruRun capacity ops).array.Nodup ∧
    (∀ v : Int, (lruRun capacity ops).has v = true ↔ v ∈ (lruRun capacity ops).array) ∧
    ((lruRun capacity ops).minimum = none ↔ (lruRun capacity ops).array = []) ∧
    (∀ m : Int, (lruRun capacity ops).minimum = some m →
      m ∈ (lruRun capacity ops).array ∧ ∀ x ∈ (lruRun capacity ops).array, m ≤ x) := by
  obtain ⟨hmem, hnd⟩ := lruRun_consistent capacity ops
  refine ⟨hmem, hnd, ?_, minimum_eq_none_iff _, fun m hm => minimum_spec hm⟩
  intro v
  rw [LRUCache.has, decide_eq_true_eq]
  exact hmem v

/-- C9 witness: in the cache holding 3 and 5, `minimum` returns 3, which is a
member and a lower bound of the recency array. -/
theorem lru_internal_consistency_witness :
    (3 : Int) ∈ (lruRun 10 [LruOp.put 3, LruOp.put 5]).array ∧
    ∀ x ∈ (lruRun 10 [LruOp.put 3, LruOp.put 5]).array, (3 : Int) ≤ x :=
  (lru_internal_consistency 10 [LruOp.put 3, LruOp.put 5]).2.2.2.2 3 (by decide)

/-- C10: when the id matches no model, or its index has no expanded entry,
`_discardExpandedStateById` still runs the full `_updatePositions` pass; and
that pass is not a no-op in general — on a one-item view whose visible item
measures 50 against an estimate of 40, it rewrites the ledgers and resizes the
content surface. -/
theorem discard_unknown_runs_updatePositions (cfg : ViewConfig) (count : Nat)
    (collection : List Int) (measure : Int → Int) (s : ViewState) (id : Int)
    (hnf : getIndexById collection id = none ∨
      ∃ i : Int, getIndexById collection id = some i ∧
        s.expandedHeightsMap.has i = false) :
    discardExpandedStateById cfg count collection measure s id
        = updatePositions cfg count measure s ∧
    (discardExpandedStateById ⟨40, 0, false⟩ 1 [] (fun _ => 50)
        ⟨[0], [], [], [], (0, 0), 0, false, LRUCache.init 10⟩ 7).contentHeight
      ≠ (⟨[0], [], [], [], (0, 0), 0, false, LRUCache.init 10⟩ : ViewState).contentHeight := by
  constructor
  · rcases hnf with hnone | ⟨i, hsome, hmiss⟩
    · exact discard_eq_none hnone
    · exact discard_eq_notExpanded hsome hmiss
  · decide

/-- C10 witness: the theorem applied to an id absent from the collection. -/
theorem discard_unknown_runs_updatePositions_witness :
    discardExpandedStateById ⟨64, 1, false⟩ 0 [] (fun _ => 0) ViewState.init 9
        = updatePositions ⟨64, 1, false⟩ 0 (fun _ => 0) ViewState.init ∧
    (discardExpandedStateById ⟨40, 0, false⟩ 1 [] (fun _ => 50)
        ⟨[0], [], [], [], (0, 0), 0, false, LRUCache.init 10⟩ 7).contentHeight
      ≠ (⟨[0], [], [], [], (0, 0), 0, false, LRUCache.init 10⟩ : ViewState).contentHeight :=
  discard_unknown_runs_updatePositions ⟨64, 1, false⟩ 0 [] (fun _ => 0) ViewState.init 9
    (Or.inl (by decide))
